import Mathlib

/-!
# zdb2 : the connection pool and the connection url

A shallow embedding of `zdb2/db/pool.hpp` (class `pool`), of the parts of
`zdb2/db/connection.hpp` the pool reads, of the callers that hold the
leases handed out by `pool::get`, and of `zdb2/net/url.hpp` (class `url`).

* `std::size_t` values are natural numbers, reduced modulo `2 ^ 64` where the
  source increments, decrements or casts.
* `std::deque<connection *>` is a `List connection`, front of the deque first.
* A `connection *` is a `connection` value; its field `addr` is the address of
  the heap object, two pointers are the same instance when the addresses agree.
* Time points are whole seconds since the epoch
  (`connection::get_last_access_time`: "The time is returned as the number of
  seconds since midnight, January 1, 1970 GMT").
* A C++ exception is the `error` case of `Except String`, the string being the
  `what()` of the exception.
* What the outside world decides (whether a driver constructor throws, what
  `ping()` answers, what the clock shows) is an argument of the operation.
-/

namespace zdb2

/-! ## std::size_t -/

/-- Modulus of `std::size_t` arithmetic. -/
def SIZE_T_MOD : Nat := 2 ^ 64

/-- The increment `x++` of a `std::size_t`. -/
def size_t_incr (x : Nat) : Nat := (x + 1) % SIZE_T_MOD

/-- The decrement `x--` of a `std::size_t`; zero wraps around. -/
def size_t_decr (x : Nat) : Nat := (x + (SIZE_T_MOD - 1)) % SIZE_T_MOD

/-- The cast `(std::size_t)seconds` of a signed number of seconds. -/
def size_t_cast (s : Int) : Nat := (s % (SIZE_T_MOD : Int)).toNat

/-! ## connection.hpp -/

/-- The concrete classes `pool::new_connection` instantiates. -/
inductive driver_class where
  | mysql_connection
  | sqlite_connection
  | sqlserver_connection
  deriving DecidableEq, Repr

/-- A driver instance as the pool sees it (`connection *`).
`m_last_access_time` is initialised by the member initialiser
`= std::chrono::system_clock::now()` when the object is constructed; no
statement of the repository assigns it afterwards. -/
structure connection where
  addr : Nat
  cls : driver_class
  m_last_access_time : Int
  deriving DecidableEq, Repr

/-- The accessor `connection::get_last_access_time`. -/
def connection.get_last_access_time (c : connection) : Int := c.m_last_access_time

/-- What one invocation of a driver constructor does: it returns, the clock
showing `now` at that moment, or it throws (`_connect` / `_init` of the driver
raise `std::runtime_error`). -/
inductive ctor_step where
  | constructed (now : Int)
  | throws (what : String)
  deriving DecidableEq, Repr

/-! ## pool.hpp -/

/-- The result of a call of `pool::new_connection`: an exception, or the
returned pointer, `none` being `nullptr`. -/
abbrev new_connection_result := Except String (Option connection)

/-- The class chosen by the `if` chain of `pool::new_connection`, or `none`
in the final `else` branch. -/
def new_connection_class (_db_type : String) : Option driver_class :=
  if _db_type = "mysql" then some driver_class.mysql_connection
  else if _db_type = "oracle" then some driver_class.sqlite_connection
  else if _db_type = "postgresql" then some driver_class.sqlite_connection
  else if _db_type = "sqlite" then some driver_class.sqlite_connection
  else if _db_type = "sqlserver" then some driver_class.sqlserver_connection
  else none

/-- The function `pool::new_connection`. `addr` is the address `operator new`
hands out and `r` what the driver constructor does when it is invoked. -/
def new_connection (_db_type : String) (addr : Nat) (r : ctor_step) : new_connection_result :=
  match new_connection_class _db_type with
  | none => Except.error "unknown database type."
  | some cls =>
    match r with
    | ctor_step.constructed now => Except.ok (some ⟨addr, cls, now⟩)
    | ctor_step.throws what => Except.error what

/-- Number of driver constructors one call of `pool::new_connection` invokes. -/
def new_connection_ctor_calls (_db_type : String) : Nat :=
  match new_connection_class _db_type with
  | none => 0
  | some _ => 1

/-- The data members of `pool`. `db_type` is `m_url_ptr->get_dbtype()` and
`m_sweep_thread_ptr` tells whether the sweep thread has been created. -/
structure pool where
  db_type : String
  m_stopped : Bool
  m_sweep_thread_ptr : Bool
  m_connections : List connection
  m_using_count : Nat
  m_init_conn_count : Nat
  m_conn_timeout : Nat
  m_execute_timeout : Nat
  m_max_conn_count : Nat
  m_sweep_interval : Nat
  deriving DecidableEq, Repr

/-- What `pool::get` hands to its caller. -/
inductive get_outcome where
  | lease (c : connection)
  | null
  | throws (what : String)
  deriving DecidableEq, Repr

/-- The pool after `pool::get`, what the call returned, and how many driver
constructors it invoked. -/
structure get_result where
  p : pool
  ret : get_outcome
  ctor_calls : Nat
  deriving DecidableEq, Repr

/-- The function `pool::get`. `addr` and `r` are consumed only if the body
reaches the call of `new_connection`. -/
def pool.get (p : pool) (addr : Nat) (r : ctor_step) : get_result :=
  match p.m_connections with
  | conn :: rest =>
    -- m_connections.size() > 0 : front(), pop_front(), m_using_count++
    ⟨{ p with m_connections := rest, m_using_count := size_t_incr p.m_using_count },
      get_outcome.lease conn, 0⟩
  | [] =>
    if p.m_using_count < p.m_max_conn_count then
      match new_connection p.db_type addr r with
      | Except.error what => ⟨p, get_outcome.throws what, new_connection_ctor_calls p.db_type⟩
      | Except.ok (some conn) =>
        ⟨{ p with m_using_count := size_t_incr p.m_using_count },
          get_outcome.lease conn, new_connection_ctor_calls p.db_type⟩
      | Except.ok none => ⟨p, get_outcome.null, new_connection_ctor_calls p.db_type⟩
    else ⟨p, get_outcome.null, 0⟩

/-- The custom deleter `pool::get` gives to every `shared_ptr<connection>`: it
runs when the lease on `conn` ends. -/
def pool.deleter (p : pool) (conn : connection) : pool :=
  { p with m_connections := p.m_connections ++ [conn],
           m_using_count := size_t_decr p.m_using_count }

/-- The `for` loop of `pool::_init` over the results of its successive
`new_connection` calls; an exception leaves the loop and the function. -/
def _init_fill : List new_connection_result → List connection → Except String (List connection)
  | [], conns => Except.ok conns
  | Except.error what :: _, _ => Except.error what
  | Except.ok (some conn) :: rest, conns => _init_fill rest (conns ++ [conn])
  | Except.ok none :: rest, conns => _init_fill rest conns

/-- The function `pool::_init`; `attempt i` is the result of the `new_connection`
call of iteration `i`. -/
def pool._init (p : pool) (attempt : Nat → new_connection_result) : Except String pool :=
  match _init_fill ((List.range p.m_init_conn_count).map attempt) p.m_connections with
  | Except.error what => Except.error what
  | Except.ok conns =>
    if conns.length = 0 then
      Except.error "failed to fill the pool with initial connections."
    else Except.ok { p with m_connections := conns, m_sweep_thread_ptr := true }

/-- The constructor `pool::pool`: the member initialisers, then `_init()`. -/
def pool.create (db_type : String)
    (init_conn_count conn_timeout execute_timeout max_conn_count sweep_interval : Nat)
    (attempt : Nat → new_connection_result) : Except String pool :=
  pool._init
    { db_type := db_type, m_stopped := false, m_sweep_thread_ptr := false,
      m_connections := [], m_using_count := 0,
      m_init_conn_count := init_conn_count, m_conn_timeout := conn_timeout,
      m_execute_timeout := execute_timeout, m_max_conn_count := max_conn_count,
      m_sweep_interval := sweep_interval }
    attempt

/-- The value `(std::size_t)seconds` of `pool::_reap_connections`: the whole
seconds between the last access time and `now`, cast to `std::size_t`. -/
def elapsed_seconds (now : Int) (c : connection) : Nat :=
  size_t_cast (now - c.get_last_access_time)

/-- The loop of `pool::_reap_connections`: the connections kept, in order, and
the connections deleted, in order. The clock shows `now` throughout the loop. -/
def _reap_loop (m_conn_timeout : Nat) (now : Int) (ping : connection → Bool) :
    List connection → List connection × List connection
  | [] => ([], [])
  | c :: rest =>
    let r := _reap_loop m_conn_timeout now ping rest
    if elapsed_seconds now c > m_conn_timeout || !ping c then (r.1, c :: r.2)
    else (c :: r.1, r.2)

/-- The function `pool::_reap_connections`, with the list of deleted instances. -/
def pool._reap_connections (p : pool) (now : Int) (ping : connection → Bool) :
    pool × List connection :=
  if p.m_connections.length > 0 then
    let r := _reap_loop p.m_conn_timeout now ping p.m_connections
    ({ p with m_connections := r.1 }, r.2)
  else (p, [])

/-! ## The pool and its callers -/

/-- A pool together with the leases its callers hold: `leases` lists the
instances wrapped by a live `shared_ptr<connection>` returned by `pool::get`,
and `next_addr` is the next address `operator new` hands out. -/
structure world where
  p : pool
  leases : List connection
  next_addr : Nat
  deriving DecidableEq, Repr

/-- Construction of a pool by a caller: the driver constructor of iteration
`i` of `_init` behaves as `rs i`, and its object is placed at address `i`. -/
def world.create (db_type : String)
    (init_conn_count conn_timeout execute_timeout max_conn_count sweep_interval : Nat)
    (rs : Nat → ctor_step) : Except String world :=
  match pool.create db_type init_conn_count conn_timeout execute_timeout max_conn_count
      sweep_interval (fun i => new_connection db_type i (rs i)) with
  | Except.error what => Except.error what
  | Except.ok p => Except.ok ⟨p, [], init_conn_count⟩

/-- A world after an acquire, with what the caller received and the number of
driver constructors the call invoked. -/
structure acquired where
  w : world
  ret : get_outcome
  ctor_calls : Nat
  deriving DecidableEq, Repr

/-- A caller acquires: `pool::get` runs, and a returned lease is held. -/
def world.acquire (w : world) (r : ctor_step) : acquired :=
  let g := w.p.get w.next_addr r
  match g.ret with
  | get_outcome.lease c =>
    ⟨⟨g.p, w.leases ++ [c], w.next_addr + g.ctor_calls⟩, g.ret, g.ctor_calls⟩
  | _ => ⟨⟨g.p, w.leases, w.next_addr + g.ctor_calls⟩, g.ret, g.ctor_calls⟩

/-- A caller drops the lease on `c`: the deleter runs on `c`. -/
def world.release (w : world) (c : connection) : world :=
  ⟨w.p.deleter c, w.leases.erase c, w.next_addr⟩

/-- One pass of the reaper at time `now`. -/
def world.sweep (w : world) (now : Int) (ping : connection → Bool) : world :=
  ⟨(w.p._reap_connections now ping).1, w.leases, w.next_addr⟩

/-- The operations applied to a constructed pool. -/
inductive op where
  | acquire (r : ctor_step)
  | release (c : connection)
  | sweep (now : Int) (ping : connection → Bool)

/-- The effect of one operation. -/
def world.step (w : world) : op → world
  | op.acquire r => (w.acquire r).w
  | op.release c => w.release c
  | op.sweep now ping => w.sweep now ping

/-- An operation is admissible when a release ends an outstanding lease. -/
def op.admissible (w : world) : op → Prop
  | op.release c => c ∈ w.leases
  | _ => True

/-- The states of a pool: the state right after a successful construction with
`std::size_t` arguments, and every state an admissible operation leads to. -/
inductive reachable : world → Prop where
  | create (db_type : String)
      (init_conn_count conn_timeout execute_timeout max_conn_count sweep_interval : Nat)
      (rs : Nat → ctor_step) (w : world)
      (hmax : max_conn_count < SIZE_T_MOD)
      (hw : world.create db_type init_conn_count conn_timeout execute_timeout max_conn_count
        sweep_interval rs = Except.ok w) : reachable w
  | step (w : world) (o : op) (hw : reachable w) (ho : op.admissible w o) :
      reachable (w.step o)

/-- Consecutive acquires, the driver constructors behaving as listed: what each
acquire returned and how many constructors it invoked. -/
def world.acquires (w : world) : List ctor_step → List (get_outcome × Nat)
  | [] => []
  | r :: rs => ((w.acquire r).ret, (w.acquire r).ctor_calls) :: world.acquires (w.acquire r).w rs

/-- The connection an attempt of `pool::_init` yields, if it yields one. -/
def opened : new_connection_result → Option connection
  | Except.ok (some conn) => some conn
  | _ => none

/-- An attempt of `pool::_init` that left `new_connection` by an exception. -/
def raised : new_connection_result → Bool
  | Except.error _ => true
  | _ => false

/-! ## Concrete scenarios -/

/-- Driver constructors that all return, number `i` at second `i`. -/
def opens_at_index : Nat → ctor_step := fun i => ctor_step.constructed (Int.ofNat i)

/-- The first sqlite instance of a scenario, constructed at second 0. -/
def conn0 : connection := ⟨0, driver_class.sqlite_connection, 0⟩

/-- The second sqlite instance of a scenario, constructed at second 1. -/
def conn1 : connection := ⟨1, driver_class.sqlite_connection, 1⟩

/-- The state right after `pool(url, 2, 30, 3000, 3, 60)` on a sqlite url. -/
def world_2_of_3 : world :=
  ⟨⟨"sqlite", false, true, [conn0, conn1], 0, 2, 30, 3000, 3, 60⟩, [], 2⟩

/-- The state right after `pool(url, 2, 30, 3000, 1, 60)` on a sqlite url:
`init_conn_count` is larger than `max_conn_count`. -/
def world_2_of_1 : world :=
  ⟨⟨"sqlite", false, true, [conn0, conn1], 0, 2, 30, 3000, 1, 60⟩, [], 2⟩

/-- From `world_2_of_3`: both instances are acquired, then the lease on
`conn0` is released; `conn1` stays under lease. -/
def world_one_leased : world :=
  ((world_2_of_3.step (op.acquire (ctor_step.constructed 5))).step
    (op.acquire (ctor_step.constructed 6))).step (op.release conn0)

/-- From `world_2_of_3`: both instances are acquired and stay under lease, so
that idle is empty and one more instance may be constructed. -/
def world_two_leased : world :=
  (world_2_of_3.step (op.acquire (ctor_step.constructed 5))).step
    (op.acquire (ctor_step.constructed 6))

/-- From `world_one_leased`: the lease on `conn1` is released as well, so that
idle holds `conn0`, returned first, then `conn1`, returned last. -/
def world_both_returned : world := world_one_leased.step (op.release conn1)

/-- The state right after `pool(url, 1, 30, 3000, 20, 60)` on a sqlite url, the
instance being constructed at second 0. -/
def world_1_of_20 : world :=
  ⟨⟨"sqlite", false, true, [conn0], 0, 1, 30, 3000, 20, 60⟩, [], 1⟩

/-- A `ping()` that answers true for every instance. -/
def ping_alive : connection → Bool := fun _ => true

/-- Driver constructors of which the first returns and the second throws the
error of `sqlite_connection::_connect`. -/
def second_open_fails : Nat → ctor_step := fun i =>
  if i = 1 then
    ctor_step.throws "error : cannot open database,check if the database file exists."
  else ctor_step.constructed 0

/-! ## pool.hpp : shutdown -/

/-- The call `m_sweep_thread_ptr->joinable()`. The thread object is joinable
from its creation in `_init` until `join()` returns; the only `join()` is the
one of `pool::destroy`, which runs right after `m_stopped = true`, the only
assignment to `m_stopped`. -/
def pool.joinable (p : pool) : Bool := !p.m_stopped

/-- The function `pool::destroy`, with the list of deleted instances. In the
first block the thread is signalled (`m_stopped = true`) and joined. -/
def pool.destroy (p : pool) : pool × List connection :=
  let p1 := if p.m_sweep_thread_ptr && p.joinable then { p with m_stopped := true } else p
  if p1.m_connections.length > 0 then ({ p1 with m_connections := [] }, p1.m_connections)
  else (p1, [])

/-- What the destructor `pool::~pool` does: the pool after `destroy()`, the
instances deleted, and whether `assert(m_using_count == 0)` holds. -/
structure destructed where
  p : pool
  deleted : List connection
  assertion_holds : Bool
  deriving DecidableEq, Repr

/-- The number of `std::shared_ptr<pool>` that own the pool object: the
`owners` the application holds, and one for every outstanding lease, the
`this_ptr` that `pool::get` obtains by `shared_from_this()` and stores in the
deleter of the `shared_ptr<connection>` it returns. -/
def world.use_count (w : world) (owners : Nat) : Nat := owners + w.leases.length

/-- The destructor `pool::~pool`. The pool object is destructed when its last
owner is gone and not before: `none` while an owner is left, otherwise
`destroy()`, then the assertion. -/
def world.destructor (w : world) (owners : Nat) : Option destructed :=
  if w.use_count owners = 0 then
    some ⟨w.p.destroy.1, w.p.destroy.2, decide (w.p.destroy.1.m_using_count = 0)⟩
  else none

/-- Shutdown of the pool of a world; the leases the callers hold stay. -/
def world.shutdown (w : world) : world := ⟨w.p.destroy.1, w.leases, w.next_addr⟩

/-! ## url.hpp

A `std::string` is a `List Char`. Positions are `std::size_t` values and
`std::string::npos` is the largest of them. -/

/-- The constant `std::string::npos`. -/
def npos : Nat := SIZE_T_MOD - 1

/-- The sum `a + b` of two `std::size_t`. -/
def size_t_add (a b : Nat) : Nat := (a + b) % SIZE_T_MOD

/-- Scan of `find_first_of`: `i` is the position of the head of the list. -/
def find_from (chars : List Char) : List Char → Nat → Nat
  | [], _ => npos
  | c :: cs, i => if c ∈ chars then i else find_from chars cs (i + 1)

/-- The call `s.find_first_of(chars, pos)`: the first position at or after
`pos` that holds one of the characters of `chars`, or `npos`. -/
def find_first_of (s chars : List Char) (pos : Nat) : Nat :=
  find_from chars (s.drop pos) pos

/-- The call `s.substr(pos, n)` for `pos ≤ s.size()`, which holds at every
call of `url.hpp`; `s.substr(pos)` is `substr s pos npos`. -/
def substr (s : List Char) (pos n : Nat) : List Char := (s.drop pos).take n

/-- How a call ends: a loop runs out of its fuel, an exception is thrown, or
the call returns. -/
inductive outcome (α : Type) where
  | no_end
  | throws (what : String)
  | returns (a : α)
  deriving DecidableEq, Repr

/-- The data members of `url`; `m_params` lists the entries of the
`unordered_map` in the order of their insertion. -/
structure url where
  m_url : List Char
  m_host : List Char
  m_dbtype : List Char
  m_dbname : List Char
  m_port : List Char
  m_params : List (List Char × List Char)
  deriving DecidableEq, Repr

/-- The call `m_params.emplace(name, value)`: nothing is inserted when the map
already holds an entry for `name`. -/
def emplace (m_params : List (List Char × List Char)) (name value : List Char) :
    List (List Char × List Char) :=
  if (m_params.lookup name).isSome then m_params else m_params ++ [(name, value)]

/-- The function `url::get_param_value`. -/
def url.get_param_value (u : url) (name : List Char) : List Char :=
  match u.m_params.lookup name with
  | some value => value
  | none => []

/-- The function `url::_clear`. -/
def url._clear (_u : url) : url := ⟨[], [], [], [], [], []⟩

/-- The `while` loop of `url::_parse_params`, with fuel. -/
def _parse_params_loop (params : List Char) :
    Nat → Nat → Nat → List (List Char × List Char) → Option (List (List Char × List Char))
  | 0, _, _, _ => none
  | fuel + 1, pos_sep, pos_head, m_params =>
    if pos_sep > pos_head ∧ pos_sep ≠ npos then
      let param := substr params pos_head (pos_sep - pos_head)
      let pos_equal := find_first_of param ['='] 0
      let m_params1 :=
        if pos_equal > 0 ∧ size_t_incr pos_equal < param.length then
          emplace m_params (substr param 0 pos_equal) (substr param (size_t_incr pos_equal) npos)
        else m_params
      let pos_sep1 := size_t_incr pos_sep
      _parse_params_loop params fuel (find_first_of params ['&'] pos_sep1) pos_sep1 m_params1
    else some m_params

/-- The function `url::_parse_params`: the returned `bool` and the members. -/
def url._parse_params (u : url) (pos_params_begin : Nat) : outcome (Bool × url) :=
  if u.m_url.length ≤ pos_params_begin then outcome.returns (false, u)
  else
    let params0 := substr u.m_url pos_params_begin npos
    let params := if params0.getLast? ≠ some '&' then params0 ++ ['&'] else params0
    match _parse_params_loop params (params.length + 1) (find_first_of params ['&'] 0) 0
        u.m_params with
    | none => outcome.no_end
    | some m_params => outcome.returns (true, { u with m_params := m_params })

/-- The function `url::_parse_sqlite`. -/
def url._parse_sqlite (u : url) (pos_host_begin : Nat) : outcome (Bool × url) :=
  let pos_db_end := find_first_of u.m_url ['?'] pos_host_begin
  if pos_db_end = pos_host_begin ∨ pos_db_end = npos then
    outcome.throws "url string is invalid,no sqlite database file specified in url."
  else
    url._parse_params
      { u with m_dbname := substr u.m_url pos_host_begin (pos_db_end - pos_host_begin) }
      (size_t_incr pos_db_end)

/-- The function `url::_parse_standard`. -/
def url._parse_standard (u : url) (pos_host_begin : Nat) : outcome (Bool × url) :=
  let pos_host_end := find_first_of u.m_url [':'] pos_host_begin
  if pos_host_end = pos_host_begin ∨ pos_host_end = npos then
    outcome.throws "url string is invalid,no host specified in url."
  else
    let m_host := substr u.m_url pos_host_begin (pos_host_end - pos_host_begin)
    let pos_host_end1 := size_t_incr pos_host_end
    let pos_port_end := find_first_of u.m_url ['/'] pos_host_end1
    if pos_port_end = pos_host_end1 ∨ pos_port_end = npos then
      outcome.throws "url string is invalid,no port specified in url."
    else
      let m_port := substr u.m_url pos_host_end1 (pos_port_end - pos_host_end1)
      let pos_port_end1 := size_t_incr pos_port_end
      let pos_db_end := find_first_of u.m_url ['?'] pos_port_end1
      if pos_db_end = pos_port_end1 ∨ pos_db_end = npos then
        outcome.throws "url string is invalid,no database name specified in url."
      else
        url._parse_params
          { u with m_host := m_host, m_port := m_port,
                   m_dbname := substr u.m_url pos_port_end1 (pos_db_end - pos_port_end1) }
          (size_t_incr pos_db_end)

/-- The function `url::_parse_oracle_by_service`. -/
def url._parse_oracle_by_service (u : url) (pos_service_begin : Nat) : outcome (Bool × url) :=
  let pos_service_end := find_first_of u.m_url ['?'] pos_service_begin
  if pos_service_end = pos_service_begin ∨ pos_service_end = npos then
    outcome.throws "url string is invalid,no oracle service name specified in url."
  else
    url._parse_params
      { u with m_host :=
          substr u.m_url pos_service_begin (pos_service_end - pos_service_begin) }
      (size_t_incr pos_service_end)

/-- The function `url::_parse_mysql`. -/
def url._parse_mysql (u : url) (pos_host_begin : Nat) : outcome (Bool × url) :=
  u._parse_standard pos_host_begin

/-- The function `url::_parse_oracle`. -/
def url._parse_oracle (u : url) (pos_host_begin : Nat) : outcome (Bool × url) :=
  if u.m_url.getD pos_host_begin (Char.ofNat 0) = '/' then
    u._parse_oracle_by_service (size_t_incr pos_host_begin)
  else u._parse_standard pos_host_begin

/-- The function `url::_parse_postgresql`. -/
def url._parse_postgresql (u : url) (pos_host_begin : Nat) : outcome (Bool × url) :=
  u._parse_standard pos_host_begin

/-- The function `url::_parse_sqlserver`. -/
def url._parse_sqlserver (u : url) (pos_host_begin : Nat) : outcome (Bool × url) :=
  u._parse_standard pos_host_begin

/-- The test of the head-erasing loop of `url::_parse_url`: an ASCII letter. -/
def is_letter (c : Char) : Bool :=
  (decide ('a' ≤ c) && decide (c ≤ 'z')) || (decide ('A' ≤ c) && decide (c ≤ 'Z'))

/-- The loop `while (!letter(m_url[0])) m_url.erase(0, 1)` of `url::_parse_url`,
with fuel; `m_url[0]` of the empty string is the terminating null character
and `erase(0, 1)` leaves the empty string empty. -/
def erase_head_loop : Nat → List Char → Option (List Char)
  | 0, _ => none
  | fuel + 1, m_url =>
    if is_letter (m_url.headD (Char.ofNat 0)) then some m_url
    else erase_head_loop fuel (m_url.drop 1)

/-- The function `url::_parse_url` on the members `u`. A null `url_string`
takes the branch of the empty string. -/
def url._parse_url (u : url) (url_string : List Char) : outcome (Bool × url) :=
  if url_string = [] then outcome.throws "url string is null."
  else
    match erase_head_loop (url_string.length + 1) url_string with
    | none => outcome.no_end
    | some m_url =>
      let pos_dbtype_end := find_first_of m_url "://".toList 0
      if pos_dbtype_end = 0 ∨ pos_dbtype_end = npos then
        outcome.throws "url string is invalid,can't parse the database type."
      else
        let m_dbtype := (substr m_url 0 (pos_dbtype_end - 0)).map Char.toLower
        let u1 : url := { u with m_url := m_url, m_dbtype := m_dbtype }
        let pos_host_begin := size_t_add pos_dbtype_end "://".length
        if m_url.length ≤ pos_host_begin then
          outcome.throws "url string is invalid,no database type specified in url."
        else if m_dbtype = "mysql".toList then u1._parse_mysql pos_host_begin
        else if m_dbtype = "oracle".toList then u1._parse_oracle pos_host_begin
        else if m_dbtype = "postgresql".toList then u1._parse_postgresql pos_host_begin
        else if m_dbtype = "sqlite".toList then u1._parse_sqlite pos_host_begin
        else if m_dbtype = "sqlserver".toList then u1._parse_sqlserver pos_host_begin
        else outcome.throws "unknown database type."

/-- The constructor `url::url`: the members start empty, `_parse_url` runs, and
`_clear()` runs when it returns false. -/
def url.create (url_string : List Char) : outcome url :=
  match url._parse_url ⟨[], [], [], [], [], []⟩ url_string with
  | outcome.no_end => outcome.no_end
  | outcome.throws what => outcome.throws what
  | outcome.returns (true, u) => outcome.returns u
  | outcome.returns (false, u) => outcome.returns u._clear

/-! ## Query strings -/

/-- A `key=value` segment whose key is non-empty and free of `=` and `&` and
whose value is non-empty and free of `&`. -/
def segment_ok (kv : List Char × List Char) : Prop :=
  kv.1 ≠ [] ∧ '=' ∉ kv.1 ∧ '&' ∉ kv.1 ∧ kv.2 ≠ [] ∧ '&' ∉ kv.2

/-- The query string made of the segments `key=value`, separated by `&`. -/
def query_text : List (List Char × List Char) → List Char
  | [] => []
  | kv :: rest =>
    match rest with
    | [] => kv.1 ++ '=' :: kv.2
    | _ :: _ => kv.1 ++ '=' :: kv.2 ++ '&' :: query_text rest

/-- The segments `key=value`, each one followed by `&`. -/
def query_text_closed : List (List Char × List Char) → List Char
  | [] => []
  | kv :: rest => kv.1 ++ '=' :: kv.2 ++ '&' :: query_text_closed rest

/-! ## pool.hpp : the lock during a sweep -/

/-- What `pool::_reap_connections` does that other threads can observe, in
order: it takes and leaves `m_lock` (the `std::lock_guard`), calls `ping()`
on an instance, deletes an instance. -/
inductive reap_event where
  | lock
  | unlock
  | ping (c : connection)
  | delete (c : connection)
  deriving DecidableEq, Repr

/-- The events of the loop of `pool::_reap_connections`. The test is
`seconds > m_conn_timeout || !ping()`: `ping()` is called only when the first
operand is false. -/
def _reap_events_loop (m_conn_timeout : Nat) (now : Int) (ping : connection → Bool) :
    List connection → List reap_event
  | [] => []
  | c :: rest =>
    if elapsed_seconds now c > m_conn_timeout then
      reap_event.delete c :: _reap_events_loop m_conn_timeout now ping rest
    else if !ping c then
      reap_event.ping c :: reap_event.delete c :: _reap_events_loop m_conn_timeout now ping rest
    else reap_event.ping c :: _reap_events_loop m_conn_timeout now ping rest

/-- The events of `pool::_reap_connections`: the `lock_guard` is constructed
first thing in the block of the `if` and destroyed at the end of that block,
after the loop. -/
def pool._reap_events (p : pool) (now : Int) (ping : connection → Bool) : List reap_event :=
  if p.m_connections.length > 0 then
    [reap_event.lock] ++ _reap_events_loop p.m_conn_timeout now ping p.m_connections ++
      [reap_event.unlock]
  else []

/-- Whether `m_lock` is held after the events `es`, the lock being free at
the start. -/
def lock_held (es : List reap_event) : Bool :=
  es.foldl
    (fun held e =>
      match e with
      | reap_event.lock => true
      | reap_event.unlock => false
      | _ => held)
    false

/-! ## The cap of the pool -/

/-- The counter counts the outstanding leases, and leases and idle
instances together stay within `max_count`, a `std::size_t`. -/
def cap_inv (w : world) : Prop :=
  w.p.m_max_conn_count < SIZE_T_MOD ∧ w.p.m_using_count = w.leases.length ∧
  w.p.m_using_count + w.p.m_connections.length ≤ w.p.m_max_conn_count

/-! ## Queries with arbitrary segments -/

/-- The status `SQLITE_OK` of `sqlite3.h`. -/
def SQLITE_OK : Int := 0

/-- The status `SQLITE_BUSY` of `sqlite3.h`. -/
def SQLITE_BUSY : Int := 5

/-- The status `SQLITE_LOCKED` of `sqlite3.h`. -/
def SQLITE_LOCKED : Int := 6

/-- The part of a `sqlite_connection` the transaction methods touch: the
counter `m_transaction` of the base class and, in order, the statements handed
to `_execute_sql`. -/
structure sqlite_connection where
  m_transaction : Int
  executed : List String
  deriving DecidableEq, Repr

/-- The function `connection::is_intransaction`. -/
def sqlite_connection.is_intransaction (c : sqlite_connection) : Bool :=
  decide (c.m_transaction > 0)

/-- The increment `m_transaction++` of a `std::atomic_int`, which wraps. -/
def atomic_int_incr (x : Int) : Int := (x + 1 + 2 ^ 31) % 2 ^ 32 - 2 ^ 31

/-- The base method `connection::begin_transaction`. -/
def connection_begin_transaction (c : sqlite_connection) : Bool × sqlite_connection :=
  (true, { c with m_transaction := atomic_int_incr c.m_transaction })

/-- The base method `connection::commit`. -/
def connection_commit (c : sqlite_connection) : Bool × sqlite_connection :=
  (true, { c with m_transaction := 0 })

/-- The base method `connection::rollback`. -/
def connection_rollback (c : sqlite_connection) : Bool × sqlite_connection :=
  (true, { c with m_transaction := 0 })

/-- The call `_execute_sql(sql)`; `status` is what the database answers. -/
def sqlite_connection._execute_sql (c : sqlite_connection) (sql : String) (status : Int) :
    Int × sqlite_connection :=
  (status, { c with executed := c.executed ++ [sql] })

/-- The method `sqlite_connection::begin_transaction`. -/
def sqlite_connection.begin_transaction (c : sqlite_connection) (status : Int) :
    Bool × sqlite_connection :=
  let r := c._execute_sql "BEGIN TRANSACTION;" status
  if SQLITE_OK = r.1 then connection_begin_transaction r.2 else (false, r.2)

/-- The method `sqlite_connection::commit`; `status` is what the database
answers to the statement, should it be issued. -/
def sqlite_connection.commit (c : sqlite_connection) (status : Int) :
    Bool × sqlite_connection :=
  if c.is_intransaction then
    let b := connection_commit c
    if b.1 then
      let r := b.2._execute_sql "COMMIT TRANSACTION;" status
      (decide (SQLITE_OK = r.1), r.2)
    else (false, b.2)
  else (false, c)

/-- The method `sqlite_connection::rollback`. -/
def sqlite_connection.rollback (c : sqlite_connection) (status : Int) :
    Bool × sqlite_connection :=
  if c.is_intransaction then
    let b := connection_rollback c
    if b.1 then
      let r := b.2._execute_sql "ROLLBACK TRANSACTION;" status
      (decide (SQLITE_OK = r.1), r.2)
    else (false, b.2)
  else (false, c)

/-! ## sqlite_util.hpp : the timed retry -/

/-- What `sqlite_util::execute` did: the status returned, the number of
handler invocations, and the sleeps in milliseconds, in order. -/
structure execute_result where
  status : Int
  calls : Nat
  sleeps : List Nat
  deriving DecidableEq, Repr

/-- The loop `while (true)` of `sqlite_util::execute`, with fuel. `handler k`
is the status of invocation number `k`, counted from zero; `x` is the local
counter; `x++` is evaluated only when the status is busy or locked. -/
def execute_loop (timeout : Nat) (handler : Nat → Int) :
    Nat → Int → Nat → List Nat → Option execute_result
  | 0, _, _, _ => none
  | fuel + 1, x, calls, sleeps =>
    if (handler calls = SQLITE_BUSY ∨ handler calls = SQLITE_LOCKED) ∧ x ≤ 9 then
      execute_loop timeout handler fuel (x + 1) (calls + 1) (sleeps ++ [timeout / 100])
    else some ⟨handler calls, calls + 1, sleeps⟩

/-- The function `sqlite_util::execute`, with fuel for its loop. -/
def sqlite_util_execute (timeout : Nat) (handler : Nat → Int) (fuel : Nat) :
    Option execute_result :=
  execute_loop timeout handler fuel 0 0 []

/-! ## Lemmas : std::size_t -/

theorem size_t_incr_of_lt (x : Nat) (h : x + 1 < SIZE_T_MOD) : size_t_incr x = x + 1 := by
  unfold size_t_incr
  exact Nat.mod_eq_of_lt h

theorem size_t_decr_of_pos (x : Nat) (h0 : 0 < x) (h : x < SIZE_T_MOD) :
    size_t_decr x = x - 1 := by
  unfold size_t_decr
  have e : x + (SIZE_T_MOD - 1) = (x - 1) + SIZE_T_MOD := by
    have : 0 < SIZE_T_MOD := by unfold SIZE_T_MOD; norm_num
    omega
  rw [e, Nat.add_mod_right]
  exact Nat.mod_eq_of_lt (by omega)

/-! ## Lemmas : pool::_init -/

theorem _init_fill_ok (l : List new_connection_result) :
    ∀ conns : List connection, (∀ r ∈ l, raised r = false) →
      _init_fill l conns = Except.ok (conns ++ l.filterMap opened) := by
  induction l with
  | nil => intro conns _; simp [_init_fill]
  | cons r rest ih =>
    intro conns h
    have hr := h r (List.mem_cons_self _ _)
    have hrest : ∀ x ∈ rest, raised x = false := fun x hx => h x (List.mem_cons_of_mem _ hx)
    match r, hr with
    | Except.ok (some c), _ =>
      simp [_init_fill, ih _ hrest, opened, List.filterMap_cons]
    | Except.ok none, _ =>
      simp [_init_fill, ih _ hrest, opened, List.filterMap_cons]
    | Except.error e, hr => simp [raised] at hr

theorem _init_fill_raised (l : List new_connection_result) :
    ∀ conns : List connection, (∃ r ∈ l, raised r = true) →
      ∃ what, _init_fill l conns = Except.error what := by
  induction l with
  | nil => intro conns h; obtain ⟨r, hr, _⟩ := h; simp at hr
  | cons r rest ih =>
    intro conns h
    match r, h with
    | Except.error e, _ => exact ⟨e, by simp [_init_fill]⟩
    | Except.ok (some c), h =>
      obtain ⟨x, hx, hxr⟩ := h
      rcases List.mem_cons.mp hx with rfl | hx
      · simp [raised] at hxr
      · simpa [_init_fill] using ih (conns ++ [c]) ⟨x, hx, hxr⟩
    | Except.ok none, h =>
      obtain ⟨x, hx, hxr⟩ := h
      rcases List.mem_cons.mp hx with rfl | hx
      · simp [raised] at hxr
      · simpa [_init_fill] using ih conns ⟨x, hx, hxr⟩

theorem _init_fill_length (l : List new_connection_result) :
    ∀ conns cs : List connection, _init_fill l conns = Except.ok cs →
      cs.length ≤ conns.length + l.length := by
  induction l with
  | nil => intro conns cs h; simp [_init_fill] at h; subst h; simp
  | cons r rest ih =>
    intro conns cs h
    match r, h with
    | Except.error e, h => simp [_init_fill] at h
    | Except.ok (some c), h =>
      have := ih (conns ++ [c]) cs (by simpa [_init_fill] using h)
      simp at this ⊢; omega
    | Except.ok none, h =>
      have := ih conns cs (by simpa [_init_fill] using h)
      simp at this ⊢; omega

theorem new_connection_addr (db : String) (a : Nat) (r : ctor_step) (c : connection)
    (h : new_connection db a r = Except.ok (some c)) : c.addr = a := by
  unfold new_connection at h
  split at h
  · simp at h
  · split at h
    · simp at h; subst h; rfl
    · simp at h

theorem _init_fill_addrs (db : String) (rs : Nat → ctor_step) (l : List Nat) :
    ∀ conns cs : List connection,
      _init_fill (l.map (fun i => new_connection db i (rs i))) conns = Except.ok cs →
      List.Sublist (cs.map connection.addr) (conns.map connection.addr ++ l) := by
  induction l with
  | nil => intro conns cs h; simp [_init_fill] at h; subst h; simp
  | cons i rest ih =>
    intro conns cs h
    rw [List.map_cons] at h
    match hn : new_connection db i (rs i), h with
    | Except.error e, h => simp [_init_fill] at h
    | Except.ok (some c), h =>
      have := ih (conns ++ [c]) cs (by simpa [_init_fill] using h)
      have ha := new_connection_addr db i (rs i) c hn
      simpa [ha] using this
    | Except.ok none, h =>
      have := ih conns cs (by simpa [_init_fill] using h)
      exact this.trans (List.Sublist.append_left (List.sublist_cons_self i rest) _)

/-! ## Lemmas : pool::_reap_connections -/

theorem _reap_loop_eq (T : Nat) (now : Int) (ping : connection → Bool) (l : List connection) :
    _reap_loop T now ping l =
      (l.filter (fun c => decide (elapsed_seconds now c ≤ T) && ping c),
       l.filter (fun c => decide (T < elapsed_seconds now c) || !ping c)) := by
  induction l with
  | nil => simp [_reap_loop]
  | cons c rest ih =>
    simp only [_reap_loop, ih]
    by_cases hs : T < elapsed_seconds now c
    · have hle : ¬ elapsed_seconds now c ≤ T := by omega
      simp [hs, hle, List.filter_cons]
    · have hle : elapsed_seconds now c ≤ T := by omega
      cases hp : ping c <;> simp [hs, hle, hp, List.filter_cons]

theorem _reap_connections_eq (p : pool) (now : Int) (ping : connection → Bool) :
    p._reap_connections now ping =
      ({ p with m_connections :=
          p.m_connections.filter (fun c => decide (elapsed_seconds now c ≤ p.m_conn_timeout) && ping c) },
       p.m_connections.filter (fun c => decide (p.m_conn_timeout < elapsed_seconds now c) || !ping c)) := by
  unfold pool._reap_connections
  by_cases h : p.m_connections.length > 0
  · simp only [h, if_true, _reap_loop_eq]
  · have he : p.m_connections = [] := by
      cases hc : p.m_connections with
      | nil => rfl
      | cons a l => rw [hc] at h; simp at h
    simp only [h, if_false, he, List.filter_nil]
    cases p
    simp_all

/-! ## Lemmas : one acquire -/

theorem acquire_reuse (w : world) (r : ctor_step) (c : connection) (rest : List connection)
    (h : w.p.m_connections = c :: rest) :
    w.acquire r =
      ⟨⟨{ w.p with m_connections := rest, m_using_count := size_t_incr w.p.m_using_count },
          w.leases ++ [c], w.next_addr⟩, get_outcome.lease c, 0⟩ := by
  simp [world.acquire, pool.get, h]

theorem acquire_exhausted (w : world) (r : ctor_step)
    (h : w.p.m_connections = []) (hfull : ¬ w.p.m_using_count < w.p.m_max_conn_count) :
    w.acquire r = ⟨w, get_outcome.null, 0⟩ := by
  simp [world.acquire, pool.get, h, hfull]

theorem acquire_construct (w : world) (now : Int) (cls : driver_class)
    (h : w.p.m_connections = []) (hroom : w.p.m_using_count < w.p.m_max_conn_count)
    (hcls : new_connection_class w.p.db_type = some cls) :
    w.acquire (ctor_step.constructed now) =
      ⟨⟨{ w.p with m_using_count := size_t_incr w.p.m_using_count },
          w.leases ++ [⟨w.next_addr, cls, now⟩], w.next_addr + 1⟩,
        get_outcome.lease ⟨w.next_addr, cls, now⟩, 1⟩ := by
  simp [world.acquire, pool.get, h, hroom, new_connection, new_connection_ctor_calls, hcls]

theorem acquire_throws (w : world) (what : String) (cls : driver_class)
    (h : w.p.m_connections = []) (hroom : w.p.m_using_count < w.p.m_max_conn_count)
    (hcls : new_connection_class w.p.db_type = some cls) :
    w.acquire (ctor_step.throws what) =
      ⟨⟨w.p, w.leases, w.next_addr + 1⟩, get_outcome.throws what, 1⟩ := by
  simp [world.acquire, pool.get, h, hroom, new_connection, new_connection_ctor_calls, hcls]

theorem acquire_unknown (w : world) (r : ctor_step)
    (h : w.p.m_connections = []) (hroom : w.p.m_using_count < w.p.m_max_conn_count)
    (hcls : new_connection_class w.p.db_type = none) :
    w.acquire r = ⟨w, get_outcome.throws "unknown database type.", 0⟩ := by
  simp [world.acquire, pool.get, h, hroom, new_connection, new_connection_ctor_calls, hcls]

/-- The cases of an acquire: reuse of the front of idle, exhaustion, a
construction that returns, a construction that throws, an unknown type. -/
theorem acquire_cases (w : world) (r : ctor_step) :
    (∃ c rest, w.p.m_connections = c :: rest ∧
      (w.acquire r).w =
        ⟨{ w.p with m_connections := rest, m_using_count := size_t_incr w.p.m_using_count },
          w.leases ++ [c], w.next_addr⟩) ∨
    (w.p.m_connections = [] ∧ (w.acquire r).w.p = w.p ∧ (w.acquire r).w.leases = w.leases ∧
      w.next_addr ≤ (w.acquire r).w.next_addr) ∨
    (∃ cls now, w.p.m_connections = [] ∧ w.p.m_using_count < w.p.m_max_conn_count ∧
      (w.acquire r).w = ⟨{ w.p with m_using_count := size_t_incr w.p.m_using_count },
        w.leases ++ [⟨w.next_addr, cls, now⟩], w.next_addr + 1⟩) := by
  cases hc : w.p.m_connections with
  | cons c rest => left; exact ⟨c, rest, rfl, by rw [acquire_reuse w r c rest hc]⟩
  | nil =>
    right
    by_cases hroom : w.p.m_using_count < w.p.m_max_conn_count
    · cases hcls : new_connection_class w.p.db_type with
      | none => left; rw [acquire_unknown w r hc hroom hcls]; simp
      | some cls =>
        cases r with
        | constructed now =>
          right; exact ⟨cls, now, rfl, hroom, by rw [acquire_construct w now cls hc hroom hcls]⟩
        | throws what => left; rw [acquire_throws w what cls hc hroom hcls]; simp
    · left; rw [acquire_exhausted w r hc hroom]; simp

/-! ## Lemmas : construction -/

theorem create_ok (db : String) (N ct et M si : Nat) (rs : Nat → ctor_step) (w : world)
    (hw : world.create db N ct et M si rs = Except.ok w) :
    w.leases = [] ∧ w.next_addr = N ∧ w.p.m_using_count = 0 ∧ w.p.db_type = db ∧
    w.p.m_init_conn_count = N ∧ w.p.m_max_conn_count = M ∧ w.p.m_conn_timeout = ct ∧
    w.p.m_connections ≠ [] ∧ w.p.m_sweep_thread_ptr = true ∧
    _init_fill ((List.range N).map (fun i => new_connection db i (rs i))) [] =
      Except.ok w.p.m_connections := by
  unfold world.create pool.create pool._init at hw
  simp only at hw
  cases hf : _init_fill ((List.range N).map (fun i => new_connection db i (rs i))) [] with
  | error e => rw [hf] at hw; simp at hw
  | ok conns =>
    rw [hf] at hw
    by_cases hl : conns.length = 0
    · simp [hl] at hw
    · simp only [hl, if_false] at hw
      injection hw with hw
      subst hw
      refine ⟨rfl, rfl, rfl, rfl, rfl, rfl, rfl, ?_, rfl, rfl⟩
      intro h
      apply hl
      simp at h
      simp [h]

/-! ## Lemmas : invariants of the reachable states -/

theorem step_config (w : world) (o : op) :
    (w.step o).p.m_max_conn_count = w.p.m_max_conn_count ∧
    (w.step o).p.m_init_conn_count = w.p.m_init_conn_count ∧
    (w.step o).p.m_conn_timeout = w.p.m_conn_timeout ∧
    (w.step o).p.db_type = w.p.db_type := by
  cases o with
  | acquire r =>
    rcases acquire_cases w r with ⟨c, rest, _, h⟩ | ⟨_, h, _, _⟩ | ⟨cls, now, _, _, h⟩ <;>
      simp [world.step, h]
  | release c => simp [world.step, world.release, pool.deleter]
  | sweep now ping => simp [world.step, world.sweep, _reap_connections_eq]

/-- Counting invariant: with `init_count ≤ max_count`, the counter equals the
number of outstanding leases and leases plus idle stay within `max_count`. -/
theorem reachable_count (w : world) (hw : reachable w)
    (hcfg : w.p.m_init_conn_count ≤ w.p.m_max_conn_count) :
    w.p.m_max_conn_count < SIZE_T_MOD ∧ w.p.m_using_count = w.leases.length ∧
    w.leases.length + w.p.m_connections.length ≤ w.p.m_max_conn_count := by
  induction hw with
  | create db N ct et M si rs w hmax hw =>
    obtain ⟨hl, _, hu, _, hi, hm, _, _, _, hf⟩ := create_ok db N ct et M si rs w hw
    have hlen := _init_fill_length _ _ _ hf
    simp at hlen
    rw [hi, hm] at hcfg
    refine ⟨by rw [hm]; exact hmax, by rw [hu, hl]; rfl, ?_⟩
    rw [hl, hm]; simp; omega
  | step w o hw ho ih =>
    obtain ⟨hm, hi, _, _⟩ := step_config w o
    rw [hm, hi] at hcfg
    obtain ⟨hmax, hu, hle⟩ := ih hcfg
    rw [hm]
    refine ⟨hmax, ?_⟩
    cases o with
    | acquire r =>
      rcases acquire_cases w r with ⟨c, rest, hc, h⟩ | ⟨_, hp, hl, _⟩ | ⟨cls, now, hc, hroom, h⟩
      · rw [hc] at hle
        simp at hle
        simp only [world.step, h, List.length_append, List.length_singleton]
        rw [size_t_incr_of_lt _ (by omega)]
        omega
      · simp only [world.step, hp, hl]
        exact ⟨hu, hle⟩
      · rw [hc] at hle
        simp at hle
        simp only [world.step, h, List.length_append, List.length_singleton, hc, List.length_nil]
        rw [size_t_incr_of_lt _ (by omega)]
        omega
    | release c =>
      have hc : c ∈ w.leases := ho
      have hpos : 0 < w.leases.length := List.length_pos_of_mem hc
      simp only [world.step, world.release, pool.deleter, List.length_append,
        List.length_singleton, List.length_erase_of_mem hc]
      rw [size_t_decr_of_pos _ (by omega) (by omega)]
      omega
    | sweep now ping =>
      simp only [world.step, world.sweep, _reap_connections_eq]
      refine ⟨hu, le_trans ?_ hle⟩
      exact Nat.add_le_add_left (List.length_filter_le _ _) _

/-- Identity invariant: the instances in idle and under lease have pairwise
different addresses, all below the next address to be handed out. -/
theorem reachable_addr (w : world) (hw : reachable w) :
    ((w.p.m_connections ++ w.leases).map connection.addr).Nodup ∧
    ∀ c ∈ w.p.m_connections ++ w.leases, c.addr < w.next_addr := by
  induction hw with
  | create db N ct et M si rs w hmax hw =>
    obtain ⟨hl, hn, _, _, _, _, _, _, _, hf⟩ := create_ok db N ct et M si rs w hw
    have hsub := _init_fill_addrs db rs (List.range N) [] _ hf
    simp only [List.map_nil, List.nil_append] at hsub
    rw [hl, hn, List.append_nil]
    refine ⟨(List.nodup_range N).sublist hsub, ?_⟩
    intro c hc
    have : c.addr ∈ List.range N := hsub.subset (List.mem_map_of_mem _ hc)
    exact List.mem_range.mp this
  | step w o hw ho ih =>
    obtain ⟨hnd, hlt⟩ := ih
    cases o with
    | acquire r =>
      rcases acquire_cases w r with ⟨c, rest, hc, h⟩ | ⟨_, hp, hl, hn⟩ | ⟨cls, now, hc, hroom, h⟩
      · simp only [world.step, h]
        rw [hc] at hnd hlt
        constructor
        · have hperm : List.Perm (rest ++ (w.leases ++ [c])) (c :: rest ++ w.leases) := by
            rw [← List.append_assoc]
            exact (List.perm_append_singleton c (rest ++ w.leases))
          exact (List.Perm.nodup_iff (hperm.map _)).mpr hnd
        · intro x hx
          apply hlt
          simp at hx ⊢
          tauto
      · simp only [world.step, hp, hl]
        exact ⟨hnd, fun c hc => lt_of_lt_of_le (hlt c hc) hn⟩
      · simp only [world.step, h]
        rw [hc] at hnd hlt ⊢
        simp only [List.nil_append] at hnd hlt ⊢
        constructor
        · rw [List.map_append, List.map_singleton]
          refine List.Nodup.append hnd (List.nodup_singleton _) ?_
          intro a ha hb
          simp at hb
          obtain ⟨x, hx, rfl⟩ := List.mem_map.mp ha
          have := hlt x hx
          omega
        · intro x hx
          rcases List.mem_append.mp hx with hx | hx
          · exact Nat.lt_succ_of_lt (hlt x hx)
          · simp at hx; subst hx; exact Nat.lt_succ_self _
    | release c =>
      have hc : c ∈ w.leases := ho
      simp only [world.step, world.release, pool.deleter]
      have hperm : List.Perm (w.p.m_connections ++ [c] ++ w.leases.erase c)
          (w.p.m_connections ++ w.leases) := by
        rw [List.append_assoc]
        exact List.Perm.append_left _ (List.perm_cons_erase hc).symm
      exact ⟨(List.Perm.nodup_iff (hperm.map _)).mpr hnd,
        fun x hx => hlt x (hperm.subset hx)⟩
    | sweep now ping =>
      simp only [world.step, world.sweep, _reap_connections_eq]
      have hsub : List.Sublist
          (w.p.m_connections.filter
            (fun c => decide (elapsed_seconds now c ≤ w.p.m_conn_timeout) && ping c) ++ w.leases)
          (w.p.m_connections ++ w.leases) :=
        List.Sublist.append (List.filter_sublist _) (List.Sublist.refl _)
      exact ⟨hnd.sublist (hsub.map _), fun x hx => hlt x (hsub.subset hx)⟩

/-! ## Lemmas : consecutive acquires -/

theorem _init_fill_all_opened (l : List new_connection_result) :
    ∀ conns : List connection, (∀ r ∈ l, ∃ c, r = Except.ok (some c)) →
      ∃ cs, _init_fill l conns = Except.ok (conns ++ cs) ∧ cs.length = l.length := by
  induction l with
  | nil => intro conns _; exact ⟨[], by simp [_init_fill], rfl⟩
  | cons r rest ih =>
    intro conns h
    obtain ⟨c, rfl⟩ := h r (List.mem_cons_self _ _)
    obtain ⟨cs, hcs, hlen⟩ := ih (conns ++ [c]) (fun x hx => h x (List.mem_cons_of_mem _ hx))
    refine ⟨c :: cs, ?_, by simp [hlen]⟩
    simp only [_init_fill, hcs, List.append_assoc, List.singleton_append]

theorem acquires_reuse (idle : List connection) :
    ∀ (w : world) (pre rest : List ctor_step), w.p.m_connections = idle →
      pre.length = idle.length → w.p.m_using_count + idle.length < SIZE_T_MOD →
      ∃ w1 : world,
        w.acquires (pre ++ rest) =
          idle.map (fun c => (get_outcome.lease c, 0)) ++ w1.acquires rest ∧
        w1.p.m_connections = [] ∧
        w1.p.m_using_count = w.p.m_using_count + idle.length ∧
        w1.p.m_max_conn_count = w.p.m_max_conn_count ∧
        w1.p.db_type = w.p.db_type ∧ w1.next_addr = w.next_addr := by
  induction idle with
  | nil =>
    intro w pre rest hi hpre _
    have : pre = [] := List.length_eq_zero.mp (by simpa using hpre)
    subst this
    exact ⟨w, by simp, hi, by simp, rfl, rfl, rfl⟩
  | cons c tl ih =>
    intro w pre rest hi hpre hsz
    cases pre with
    | nil => simp at hpre
    | cons r pre1 =>
      simp only [List.length_cons] at hpre hsz
      have hacq := acquire_reuse w r c tl hi
      have hret : (w.acquire r).ret = get_outcome.lease c := by rw [hacq]
      have hcalls : (w.acquire r).ctor_calls = 0 := by rw [hacq]
      have hidle : (w.acquire r).w.p.m_connections = tl := by rw [hacq]
      have huse : (w.acquire r).w.p.m_using_count = w.p.m_using_count + 1 := by
        rw [hacq]; exact size_t_incr_of_lt _ (by omega)
      have hmaxe : (w.acquire r).w.p.m_max_conn_count = w.p.m_max_conn_count := by rw [hacq]
      have hdbe : (w.acquire r).w.p.db_type = w.p.db_type := by rw [hacq]
      have hnext : (w.acquire r).w.next_addr = w.next_addr := by rw [hacq]
      obtain ⟨w1, h1, h2, h3, h4, h5, h6⟩ := ih (w.acquire r).w pre1 rest hidle (by omega)
        (by rw [huse]; omega)
      refine ⟨w1, ?_, h2, ?_, ?_, ?_, ?_⟩
      · rw [List.cons_append]
        show ((w.acquire r).ret, (w.acquire r).ctor_calls) ::
          (w.acquire r).w.acquires (pre1 ++ rest) = _
        rw [h1, hret, hcalls]
        rfl
      · rw [h3, huse]; simp only [List.length_cons]; omega
      · rw [h4, hmaxe]
      · rw [h5, hdbe]
      · rw [h6, hnext]

theorem acquires_construct (cls : driver_class) (ts : List Int) :
    ∀ (w : world) (rest : List ctor_step), w.p.m_connections = [] →
      new_connection_class w.p.db_type = some cls →
      w.p.m_using_count + ts.length ≤ w.p.m_max_conn_count →
      w.p.m_max_conn_count < SIZE_T_MOD →
      ∃ w1 : world,
        w.acquires (ts.map ctor_step.constructed ++ rest) =
          List.zipWith (fun a t => (get_outcome.lease ⟨a, cls, t⟩, 1))
            (List.range' w.next_addr ts.length) ts ++ w1.acquires rest ∧
        w1.p.m_connections = [] ∧
        w1.p.m_using_count = w.p.m_using_count + ts.length ∧
        w1.p.m_max_conn_count = w.p.m_max_conn_count := by
  induction ts with
  | nil =>
    intro w rest hi _ _ _
    exact ⟨w, by simp, hi, by simp, rfl⟩
  | cons t tl ih =>
    intro w rest hi hcls hroom hmax
    simp only [List.length_cons] at hroom
    have hacq := acquire_construct w t cls hi (by omega) hcls
    have hret : (w.acquire (ctor_step.constructed t)).ret =
        get_outcome.lease ⟨w.next_addr, cls, t⟩ := by rw [hacq]
    have hcalls : (w.acquire (ctor_step.constructed t)).ctor_calls = 1 := by rw [hacq]
    have hidle : (w.acquire (ctor_step.constructed t)).w.p.m_connections = [] := by
      rw [hacq]; exact hi
    have huse : (w.acquire (ctor_step.constructed t)).w.p.m_using_count =
        w.p.m_using_count + 1 := by
      rw [hacq]; exact size_t_incr_of_lt _ (by omega)
    have hmaxe : (w.acquire (ctor_step.constructed t)).w.p.m_max_conn_count =
        w.p.m_max_conn_count := by rw [hacq]
    have hdbe : (w.acquire (ctor_step.constructed t)).w.p.db_type = w.p.db_type := by rw [hacq]
    have hnext : (w.acquire (ctor_step.constructed t)).w.next_addr = w.next_addr + 1 := by
      rw [hacq]
    obtain ⟨w1, h1, h2, h3, h4⟩ := ih (w.acquire (ctor_step.constructed t)).w rest
      hidle (by rw [hdbe]; exact hcls) (by rw [huse, hmaxe]; omega) (by rw [hmaxe]; exact hmax)
    refine ⟨w1, ?_, h2, ?_, ?_⟩
    · rw [List.map_cons, List.cons_append]
      show ((w.acquire (ctor_step.constructed t)).ret,
          (w.acquire (ctor_step.constructed t)).ctor_calls) ::
        (w.acquire (ctor_step.constructed t)).w.acquires
          (List.map ctor_step.constructed tl ++ rest) = _
      rw [h1, hret, hcalls, hnext]
      simp only [List.length_cons, List.range'_succ, List.zipWith_cons_cons, List.cons_append]
    · rw [h3, huse]; simp only [List.length_cons]; omega
    · rw [h4, hmaxe]

/-! ## Lemmas : the concrete scenarios -/

theorem world_2_of_3_reachable : reachable world_2_of_3 :=
  reachable.create "sqlite" 2 30 3000 3 60 opens_at_index world_2_of_3
    (by unfold SIZE_T_MOD; norm_num) rfl

theorem world_one_leased_reachable : reachable world_one_leased :=
  reachable.step _ _
    (reachable.step _ _ (reachable.step _ _ world_2_of_3_reachable trivial) trivial)
    (by show conn0 ∈ _; decide)

theorem world_both_returned_reachable : reachable world_both_returned :=
  reachable.step _ _ world_one_leased_reachable (by show conn1 ∈ _; decide)

theorem world_1_of_20_reachable : reachable world_1_of_20 :=
  reachable.create "sqlite" 1 30 3000 20 60 opens_at_index world_1_of_20
    (by unfold SIZE_T_MOD; norm_num) rfl

/-- Every constructed pool has a database type `new_connection` knows. -/
theorem reachable_db_type (w : world) (hw : reachable w) :
    ∃ cls, new_connection_class w.p.db_type = some cls := by
  induction hw with
  | create db N ct et M si rs w hmax hw =>
    obtain ⟨_, _, _, hdb, _, _, _, hne, _, hf⟩ := create_ok db N ct et M si rs w hw
    rw [hdb]
    cases hcls : new_connection_class db with
    | some cls => exact ⟨cls, rfl⟩
    | none =>
      exfalso
      cases N with
      | zero => simp [_init_fill] at hf; exact hne hf
      | succ n =>
        have hr : ∃ r ∈ (List.range (n + 1)).map (fun i => new_connection db i (rs i)),
            raised r = true :=
          ⟨new_connection db 0 (rs 0),
            List.mem_map.mpr ⟨0, List.mem_range.mpr (Nat.succ_pos n), rfl⟩,
            by simp [new_connection, hcls, raised]⟩
        obtain ⟨what, hwhat⟩ := _init_fill_raised _ [] hr
        rw [hwhat] at hf
        simp at hf
  | step w o hw ho ih =>
    rw [(step_config w o).2.2.2]
    exact ih

/-! ## The pool : invariants -/

/-- C1, counterexample. The claim lets `init_count` and `max_count` be any
configuration. A sqlite pool constructed with `init_conn_count = 2` and
`max_conn_count = 1`, both opens succeeding, is constructed successfully and
holds two idle instances: right after construction
`leased_count + |idle| = 2` exceeds `max_count = 1`. -/
theorem pool_cap_exceeded_after_create :
    world.create "sqlite" 2 30 3000 1 60 opens_at_index = Except.ok world_2_of_1 ∧
    world_2_of_1.p.m_max_conn_count < SIZE_T_MOD ∧
    ¬ (world_2_of_1.p.m_using_count + world_2_of_1.p.m_connections.length
        ≤ world_2_of_1.p.m_max_conn_count) :=
  ⟨rfl, by unfold SIZE_T_MOD; decide, by decide⟩

/-- C1, amended. For every configuration with `init_count ≤ max_count` and
every sequence of acquire, release and sweep operations applied to a
successfully constructed pool, `leased_count + |idle| ≤ max_count` holds in
every state, the state right after construction included. -/
theorem pool_cap_invariant (w : world) (hw : reachable w)
    (hcfg : w.p.m_init_conn_count ≤ w.p.m_max_conn_count) :
    w.p.m_using_count + w.p.m_connections.length ≤ w.p.m_max_conn_count := by
  obtain ⟨_, hu, hle⟩ := reachable_count w hw hcfg
  rw [hu]
  exact hle

/-- C1, witness: the amended invariant in a state reached by two acquires and
a release on a pool with `init_count = 2` and `max_count = 3`. -/
theorem pool_cap_invariant_witness :
    reachable world_one_leased ∧
    world_one_leased.p.m_init_conn_count ≤ world_one_leased.p.m_max_conn_count ∧
    world_one_leased.p.m_using_count + world_one_leased.p.m_connections.length
      ≤ world_one_leased.p.m_max_conn_count :=
  ⟨world_one_leased_reachable, by decide,
    pool_cap_invariant world_one_leased world_one_leased_reachable (by decide)⟩

/-- C2. In every state reachable from a constructed pool by acquire, release
of an outstanding lease and sweep, no instance is wrapped by two outstanding
leases, no instance occurs twice in idle, and no instance in idle is wrapped
by an outstanding lease. -/
theorem leases_and_idle_distinct (w : world) (hw : reachable w) :
    (w.leases.map connection.addr).Nodup ∧
    (w.p.m_connections.map connection.addr).Nodup ∧
    ∀ c ∈ w.p.m_connections, ∀ l ∈ w.leases, c.addr ≠ l.addr := by
  obtain ⟨hnd, _⟩ := reachable_addr w hw
  rw [List.map_append, List.nodup_append] at hnd
  obtain ⟨hi, hl, hdis⟩ := hnd
  refine ⟨hl, hi, ?_⟩
  intro c hc l hl heq
  exact hdis (List.mem_map_of_mem _ hc) (heq ▸ List.mem_map_of_mem _ hl)

/-- C2, witness: the state with `conn0` back in idle and `conn1` under lease. -/
theorem leases_and_idle_distinct_witness :
    reachable world_one_leased ∧
    (world_one_leased.leases.map connection.addr).Nodup ∧
    (world_one_leased.p.m_connections.map connection.addr).Nodup ∧
    ∀ c ∈ world_one_leased.p.m_connections, ∀ l ∈ world_one_leased.leases, c.addr ≠ l.addr :=
  ⟨world_one_leased_reachable, leases_and_idle_distinct world_one_leased world_one_leased_reachable⟩

/-! ## The pool : acquire and release -/

/-- C3. On a pool constructed with `init_count = N ≤ max_count = M` whose `N`
initial opens all returned an instance, `M + 1` consecutive acquires behave as
follows, the constructors called by acquires `N+1 .. M` returning an instance:
acquires `1 .. N` return the `N` pre-opened instances without any constructor
call, acquires `N+1 .. M` call the driver constructor once each and return the
new instance (at a new address), and acquire `M + 1` returns null without a
constructor call. -/
theorem acquires_after_create (db : String) (N ct et M si : Nat) (rs : Nat → ctor_step)
    (w : world) (hNM : N ≤ M) (hM : M < SIZE_T_MOD)
    (hw : world.create db N ct et M si rs = Except.ok w)
    (hopen : ∀ i, i < N → ∃ c, new_connection db i (rs i) = Except.ok (some c))
    (pre : List ctor_step) (ts : List Int) (last : ctor_step)
    (hpre : pre.length = N) (hts : ts.length = M - N) :
    w.p.m_connections.map connection.addr = List.range N ∧
    ∃ cls, new_connection_class db = some cls ∧
      w.acquires (pre ++ ts.map ctor_step.constructed ++ [last]) =
        w.p.m_connections.map (fun c => (get_outcome.lease c, 0)) ++
        List.zipWith (fun a t => (get_outcome.lease ⟨a, cls, t⟩, 1)) (List.range' N (M - N)) ts ++
        [(get_outcome.null, 0)] := by
  obtain ⟨hl, hn, hu, hdb, _, hm, _, hne, _, hf⟩ := create_ok db N ct et M si rs w hw
  have hall : ∀ r ∈ (List.range N).map (fun i => new_connection db i (rs i)),
      ∃ c, r = Except.ok (some c) := by
    intro r hr
    obtain ⟨i, hi, rfl⟩ := List.mem_map.mp hr
    exact hopen i (List.mem_range.mp hi)
  obtain ⟨cs, hcs, hlen⟩ := _init_fill_all_opened _ [] hall
  rw [hf] at hcs
  simp only [List.nil_append, Except.ok.injEq] at hcs
  have hidle : w.p.m_connections.length = N := by rw [hcs, hlen]; simp
  have hsub := _init_fill_addrs db rs (List.range N) [] _ hf
  simp only [List.map_nil, List.nil_append] at hsub
  have haddr : w.p.m_connections.map connection.addr = List.range N :=
    hsub.eq_of_length (by simp [hidle])
  have hNpos : 0 < N := by
    rw [← hidle]
    exact List.length_pos.mpr hne
  obtain ⟨cls, hcls⟩ : ∃ cls, new_connection_class db = some cls := by
    obtain ⟨c, hc⟩ := hopen 0 hNpos
    cases hcls : new_connection_class db with
    | some cls => exact ⟨cls, rfl⟩
    | none => simp [new_connection, hcls] at hc
  refine ⟨haddr, cls, hcls, ?_⟩
  obtain ⟨w1, h1, hi1, hu1, hm1, hdb1, hn1⟩ :=
    acquires_reuse w.p.m_connections w pre (ts.map ctor_step.constructed ++ [last]) rfl
      (by rw [hpre, hidle]) (by rw [hu, hidle]; omega)
  rw [hu, hidle, Nat.zero_add] at hu1
  obtain ⟨w2, h2, hi2, hu2, hm2⟩ :=
    acquires_construct cls ts w1 [last] hi1 (by rw [hdb1, hdb]; exact hcls)
      (by rw [hu1, hm1, hm, hts]; omega) (by rw [hm1, hm]; exact hM)
  have hfull : ¬ w2.p.m_using_count < w2.p.m_max_conn_count := by
    rw [hu2, hm2, hu1, hm1, hm, hts]; omega
  have h3 : w2.acquires [last] = [(get_outcome.null, 0)] := by
    show [((w2.acquire last).ret, (w2.acquire last).ctor_calls)] = _
    rw [acquire_exhausted w2 last hi2 hfull]
  rw [List.append_assoc, h1, h2, h3, hn1, hn, hts, List.append_assoc]

/-- C3, witness: `N = 2`, `M = 3`; the two pre-opened instances, then one
constructed instance at address 2, then null. -/
theorem acquires_after_create_witness :
    world_2_of_3.acquires
        ([ctor_step.throws "unused", ctor_step.throws "unused"] ++
          [(7 : Int)].map ctor_step.constructed ++ [ctor_step.constructed 8]) =
      [(get_outcome.lease conn0, 0), (get_outcome.lease conn1, 0),
        (get_outcome.lease ⟨2, driver_class.sqlite_connection, 7⟩, 1),
        (get_outcome.null, 0)] := by
  obtain ⟨_, cls, hcls, h⟩ :=
    acquires_after_create "sqlite" 2 30 3000 3 60 opens_at_index world_2_of_3
      (by decide) (by unfold SIZE_T_MOD; norm_num) rfl
      (fun i _ => ⟨⟨i, driver_class.sqlite_connection, Int.ofNat i⟩, rfl⟩)
      [ctor_step.throws "unused", ctor_step.throws "unused"] [7] (ctor_step.constructed 8)
      rfl rfl
  have hc : cls = driver_class.sqlite_connection := by
    have : new_connection_class "sqlite" = some driver_class.sqlite_connection := by decide
    rw [this] at hcls
    exact (Option.some.inj hcls).symm
  subst hc
  exact h

/-- C4. In a state with an outstanding lease on `c` (the counter counting the
outstanding leases), releasing that lease appends `c` to idle, decreases
`leased_count` by exactly one and changes nothing else in the pool; an acquire
issued right afterwards returns an idle instance without calling the driver
constructor, and returns `c` itself when idle was empty before the release. -/
theorem release_then_acquire (w : world) (c : connection) (r : ctor_step)
    (hc : c ∈ w.leases) (hu : w.p.m_using_count = w.leases.length)
    (hsz : w.leases.length < SIZE_T_MOD) :
    (w.release c).p =
      { w.p with m_connections := w.p.m_connections ++ [c],
                 m_using_count := w.p.m_using_count - 1 } ∧
    (w.release c).p.m_using_count + 1 = w.p.m_using_count ∧
    (w.release c).leases = w.leases.erase c ∧
    (w.release c).next_addr = w.next_addr ∧
    (∃ d, ((w.release c).acquire r).ret = get_outcome.lease d ∧
      d ∈ w.p.m_connections ++ [c] ∧ (w.p.m_connections = [] → d = c)) ∧
    ((w.release c).acquire r).ctor_calls = 0 := by
  have hpos : 0 < w.p.m_using_count := by
    rw [hu]; exact List.length_pos_of_mem hc
  have hdec : size_t_decr w.p.m_using_count = w.p.m_using_count - 1 :=
    size_t_decr_of_pos _ hpos (by rw [hu]; exact hsz)
  refine ⟨?_, ?_, rfl, rfl, ?_, ?_⟩
  · simp only [world.release, pool.deleter, hdec]
  · simp only [world.release, pool.deleter, hdec]; omega
  · cases hi : w.p.m_connections with
    | nil =>
      refine ⟨c, ?_, by simp, fun _ => rfl⟩
      rw [acquire_reuse (w.release c) r c [] (by simp [world.release, pool.deleter, hi])]
    | cons d rest =>
      refine ⟨d, ?_, by simp, fun h => by simp at h⟩
      rw [acquire_reuse (w.release c) r d (rest ++ [c])
        (by simp [world.release, pool.deleter, hi])]
  · cases hi : w.p.m_connections with
    | nil =>
      rw [acquire_reuse (w.release c) r c [] (by simp [world.release, pool.deleter, hi])]
    | cons d rest =>
      rw [acquire_reuse (w.release c) r d (rest ++ [c])
        (by simp [world.release, pool.deleter, hi])]

/-- C4, witness: releasing `conn1` in the state where `conn1` is under lease
and `conn0` is idle. -/
theorem release_then_acquire_witness :
    conn1 ∈ world_one_leased.leases ∧
    (world_one_leased.release conn1).p.m_connections = [conn0, conn1] ∧
    (world_one_leased.release conn1).p.m_using_count + 1 = world_one_leased.p.m_using_count ∧
    ((world_one_leased.release conn1).acquire (ctor_step.throws "unused")).ctor_calls = 0 := by
  have h := release_then_acquire world_one_leased conn1 (ctor_step.throws "unused")
    (by decide) (by decide) (by unfold SIZE_T_MOD; decide)
  exact ⟨by decide, by rw [h.1]; decide, h.2.1, h.2.2.2.2.2⟩

/-- C5, counterexample. Idle holds `conn0` then `conn1`, the lease on `conn1`
having been released last; the next acquire returns `conn0`, the instance
returned first, and not the most recently returned `conn1`. -/
theorem acquire_not_most_recent :
    reachable world_both_returned ∧
    world_both_returned = world_one_leased.release conn1 ∧
    world_both_returned.p.m_connections = [conn0, conn1] ∧
    (world_both_returned.acquire (ctor_step.constructed 9)).ret = get_outcome.lease conn0 ∧
    (world_both_returned.acquire (ctor_step.constructed 9)).ret ≠ get_outcome.lease conn1 :=
  ⟨world_both_returned_reachable, rfl, by decide, by decide, by decide⟩

/-- C5, amended. When idle is not empty, acquire returns the instance at the
front of idle without a constructor call, and a release appends at the back:
the instance returned is the one that has been idle the longest, also when
another lease was released just before (idle is served oldest first). -/
theorem acquire_serves_front (w : world) (r : ctor_step) (d : connection)
    (rest : List connection) (hi : w.p.m_connections = d :: rest) :
    (w.acquire r).ret = get_outcome.lease d ∧ (w.acquire r).ctor_calls = 0 ∧
    (w.acquire r).w.p.m_connections = rest ∧
    ∀ c, (w.release c).p.m_connections = d :: (rest ++ [c]) ∧
      ((w.release c).acquire r).ret = get_outcome.lease d := by
  rw [acquire_reuse w r d rest hi]
  refine ⟨rfl, rfl, rfl, fun c => ?_⟩
  have hrel : (w.release c).p.m_connections = d :: (rest ++ [c]) := by
    simp [world.release, pool.deleter, hi]
  exact ⟨hrel, by rw [acquire_reuse (w.release c) r d (rest ++ [c]) hrel]⟩

/-- C5, witness: the front `conn0` of the idle list `conn0, conn1` is served. -/
theorem acquire_serves_front_witness :
    world_both_returned.p.m_connections = [conn0, conn1] ∧
    (world_both_returned.acquire (ctor_step.constructed 9)).ret = get_outcome.lease conn0 :=
  ⟨by decide,
    (acquire_serves_front world_both_returned (ctor_step.constructed 9) conn0 [conn1]
      (by decide)).1⟩

/-! ## The pool : the reaper -/

/-- C7, the code at the failing input. A pool with a timeout of 30 seconds
holds `conn0`, constructed at second 0. The instance is acquired and its lease
is released at second 100: the deleter puts `conn0` back with its
`m_last_access_time` still 0. The sweep at second 101, one second after the
release, measures 101 elapsed seconds and deletes the instance although its
ping answers true. -/
theorem released_instance_swept_as_stale :
    reachable world_1_of_20 ∧
    world_1_of_20.p.m_conn_timeout = 30 ∧
    (world_1_of_20.acquire (ctor_step.constructed 50)).ret = get_outcome.lease conn0 ∧
    ((world_1_of_20.acquire (ctor_step.constructed 50)).w.release conn0).p.m_connections
      = [⟨0, driver_class.sqlite_connection, 0⟩] ∧
    elapsed_seconds 101 conn0 = 101 ∧
    (((world_1_of_20.acquire (ctor_step.constructed 50)).w.release conn0).sweep 101
      ping_alive).p.m_connections = [] ∧
    (((world_1_of_20.acquire (ctor_step.constructed 50)).w.release conn0).p._reap_connections
      101 ping_alive).2 = [conn0] := by
  refine ⟨world_1_of_20_reachable, rfl, by decide, by decide, by decide, ?_, ?_⟩
  · simp only [world.sweep, _reap_connections_eq]; decide
  · simp only [_reap_connections_eq]; decide

/-! ## The pool : failures -/

/-- C8. When idle is empty, `leased_count < max_count` and the driver
constructor throws, acquire hands the error of the driver to its caller after
exactly one constructor call, and idle, `leased_count` and the outstanding
leases are unchanged. -/
theorem acquire_surfaces_ctor_error (w : world) (what : String) (cls : driver_class)
    (hi : w.p.m_connections = []) (hroom : w.p.m_using_count < w.p.m_max_conn_count)
    (hcls : new_connection_class w.p.db_type = some cls) :
    (w.acquire (ctor_step.throws what)).ret = get_outcome.throws what ∧
    (w.acquire (ctor_step.throws what)).ctor_calls = 1 ∧
    (w.acquire (ctor_step.throws what)).w.p = w.p ∧
    (w.acquire (ctor_step.throws what)).w.leases = w.leases := by
  rw [acquire_throws w what cls hi hroom hcls]
  exact ⟨rfl, rfl, rfl, rfl⟩

/-- C8, witness: two of at most three instances are leased, idle is empty and
the constructor of the third throws. -/
theorem acquire_surfaces_ctor_error_witness :
    world_two_leased.p.m_connections = [] ∧
    world_two_leased.p.m_using_count < world_two_leased.p.m_max_conn_count ∧
    (world_two_leased.acquire (ctor_step.throws "error : cannot open database")).ret =
      get_outcome.throws "error : cannot open database" ∧
    (world_two_leased.acquire (ctor_step.throws "error : cannot open database")).ctor_calls = 1 :=
  have h := acquire_surfaces_ctor_error world_two_leased "error : cannot open database"
    driver_class.sqlite_connection (by decide) (by decide) (by decide)
  ⟨by decide, by decide, h.1, h.2.1⟩

/-- C9. Construction of a pool raises an error, before the sweep thread is
created, when none of the `init_count` attempts yields a connection, which
includes `init_count = 0`; when no attempt raises and at least one yields a
connection, construction succeeds with idle holding exactly the connections
yielded, in the order of the attempts, `leased_count = 0` and the sweep thread
created. -/
theorem pool_create_outcome (db : String) (N ct et M si : Nat)
    (attempt : Nat → new_connection_result) :
    ((∀ i, i < N → opened (attempt i) = none) →
      ∃ what, pool.create db N ct et M si attempt = Except.error what) ∧
    ((∀ i, i < N → raised (attempt i) = false) →
      (∃ i, i < N ∧ opened (attempt i) ≠ none) →
      pool.create db N ct et M si attempt =
        Except.ok ⟨db, false, true, (List.range N).filterMap (fun i => opened (attempt i)),
          0, N, ct, et, M, si⟩) := by
  constructor
  · intro hnone
    unfold pool.create pool._init
    simp only
    by_cases hr : ∃ r ∈ (List.range N).map attempt, raised r = true
    · obtain ⟨what, hwhat⟩ := _init_fill_raised _ [] hr
      exact ⟨what, by rw [hwhat]⟩
    · have hall : ∀ r ∈ (List.range N).map attempt, raised r = false := by
        intro r hmem
        cases hrr : raised r with
        | false => rfl
        | true => exact absurd ⟨r, hmem, hrr⟩ hr
      rw [_init_fill_ok _ [] hall]
      have hempty : List.filterMap opened ((List.range N).map attempt) = [] := by
        rw [List.filterMap_eq_nil_iff]
        intro r hmem
        obtain ⟨i, hi, rfl⟩ := List.mem_map.mp hmem
        exact hnone i (List.mem_range.mp hi)
      exact ⟨"failed to fill the pool with initial connections.", by simp [hempty]⟩
  · intro hall hsome
    unfold pool.create pool._init
    simp only
    have hall2 : ∀ r ∈ (List.range N).map attempt, raised r = false := by
      intro r hmem
      obtain ⟨i, hi, rfl⟩ := List.mem_map.mp hmem
      exact hall i (List.mem_range.mp hi)
    rw [_init_fill_ok _ [] hall2]
    have hmap : List.filterMap opened ((List.range N).map attempt) =
        (List.range N).filterMap (fun i => opened (attempt i)) := by
      rw [List.filterMap_map]; rfl
    have hne : ([] ++ List.filterMap opened ((List.range N).map attempt)).length ≠ 0 := by
      obtain ⟨i, hi, hop⟩ := hsome
      cases hc : opened (attempt i) with
      | none => exact absurd hc hop
      | some c =>
        have hmem : c ∈ List.filterMap opened ((List.range N).map attempt) :=
          List.mem_filterMap.mpr ⟨attempt i,
            List.mem_map.mpr ⟨i, List.mem_range.mpr hi, rfl⟩, hc⟩
        have := List.length_pos_of_mem hmem
        simp only [List.nil_append]
        omega
    rw [List.nil_append, hmap] at hne
    simp only [List.nil_append, hmap, if_neg hne]

/-- C9, witness: a pool asked for zero initial connections is not
constructed, and a sqlite pool whose two opens succeed is constructed with
both connections idle in creation order. -/
theorem pool_create_outcome_witness :
    (∃ what, pool.create "sqlite" 0 30 3000 20 60
      (fun i => new_connection "sqlite" i (opens_at_index i)) = Except.error what) ∧
    pool.create "sqlite" 2 30 3000 3 60
      (fun i => new_connection "sqlite" i (opens_at_index i)) = Except.ok world_2_of_3.p :=
  ⟨(pool_create_outcome "sqlite" 0 30 3000 20 60
      (fun i => new_connection "sqlite" i (opens_at_index i))).1 (fun i hi => absurd hi (by omega)),
   (pool_create_outcome "sqlite" 2 30 3000 3 60
      (fun i => new_connection "sqlite" i (opens_at_index i))).2
      (fun i hi => by
        have h : i = 0 ∨ i = 1 := by omega
        rcases h with rfl | rfl <;> rfl)
      ⟨0, by decide, by decide⟩⟩

/-- C10, the code at the failing input. A sqlite pool is constructed with
`init_conn_count = 2`; the first open succeeds and the second one throws the
error of `sqlite_connection::_connect`. The exception leaves `_init` and the
constructor: no pool is created, although one of the two opens succeeded. -/
theorem create_aborted_by_one_failed_open :
    new_connection "sqlite" 0 (second_open_fails 0) =
      Except.ok (some ⟨0, driver_class.sqlite_connection, 0⟩) ∧
    pool.create "sqlite" 2 30 3000 20 60
        (fun i => new_connection "sqlite" i (second_open_fails i)) =
      Except.error "error : cannot open database,check if the database file exists." ∧
    world.create "sqlite" 2 30 3000 20 60 second_open_fails =
      Except.error "error : cannot open database,check if the database file exists." :=
  ⟨rfl, rfl, rfl⟩

/-! ## Lemmas : std::string -/

theorem npos_pos : 0 < npos := by unfold npos SIZE_T_MOD; norm_num

theorem npos_succ : npos + 1 = SIZE_T_MOD := by unfold npos SIZE_T_MOD; norm_num

theorem find_from_skip (chars mid : List Char) (c : Char) (rest : List Char) :
    ∀ i : Nat, (∀ x ∈ mid, x ∉ chars) → c ∈ chars →
      find_from chars (mid ++ c :: rest) i = i + mid.length := by
  induction mid with
  | nil => intro i _ hc; simp [find_from, hc]
  | cons a tl ih =>
    intro i hmid hc
    have ha : a ∉ chars := hmid a (List.mem_cons_self _ _)
    have htl : ∀ x ∈ tl, x ∉ chars := fun x hx => hmid x (List.mem_cons_of_mem _ hx)
    rw [List.cons_append]
    show (if a ∈ chars then i else find_from chars (tl ++ c :: rest) (i + 1)) = _
    rw [if_neg ha, ih (i + 1) htl hc, List.length_cons]
    omega

theorem find_from_absent (chars l : List Char) :
    ∀ i : Nat, (∀ x ∈ l, x ∉ chars) → find_from chars l i = npos := by
  induction l with
  | nil => intro i _; rfl
  | cons a tl ih =>
    intro i h
    have ha : a ∉ chars := h a (List.mem_cons_self _ _)
    simp only [find_from, ha, if_false]
    exact ih (i + 1) (fun x hx => h x (List.mem_cons_of_mem _ hx))

theorem find_from_found (chars l : List Char) :
    ∀ i : Nat, find_from chars l i = npos ∨
      (i ≤ find_from chars l i ∧ find_from chars l i < i + l.length ∧
        ∃ c ∈ chars, l[find_from chars l i - i]? = some c) := by
  induction l with
  | nil => intro i; left; rfl
  | cons a tl ih =>
    intro i
    by_cases ha : a ∈ chars
    · right
      simp only [find_from, ha, if_true, List.length_cons]
      exact ⟨le_refl _, by omega, a, ha, by simp⟩
    · simp only [find_from, ha, if_false, List.length_cons]
      rcases ih (i + 1) with h | ⟨h1, h2, c, hc, hget⟩
      · left; exact h
      · right
        refine ⟨by omega, by omega, c, hc, ?_⟩
        have e : find_from chars tl (i + 1) - i = (find_from chars tl (i + 1) - (i + 1)) + 1 := by
          omega
        rw [e, List.getElem?_cons_succ]
        exact hget

theorem find_first_of_skip (pre mid : List Char) (c : Char) (rest chars : List Char)
    (hmid : ∀ x ∈ mid, x ∉ chars) (hc : c ∈ chars) :
    find_first_of (pre ++ (mid ++ c :: rest)) chars pre.length = pre.length + mid.length := by
  unfold find_first_of
  rw [List.drop_left]
  exact find_from_skip chars mid c rest pre.length hmid hc

theorem find_first_of_absent (pre rest chars : List Char) (hrest : ∀ x ∈ rest, x ∉ chars) :
    find_first_of (pre ++ rest) chars pre.length = npos := by
  unfold find_first_of
  rw [List.drop_left]
  exact find_from_absent chars rest pre.length hrest

/-- A position returned by `find_first_of` is `npos`, or lies in the string at
or after the start and holds one of the characters. -/
theorem find_first_of_found (s chars : List Char) (pos : Nat) :
    find_first_of s chars pos = npos ∨
      (pos ≤ find_first_of s chars pos ∧ find_first_of s chars pos < s.length ∧
        ∃ c ∈ chars, s[find_first_of s chars pos]? = some c) := by
  unfold find_first_of
  rcases find_from_found chars (s.drop pos) pos with h | ⟨h1, h2, c, hc, hget⟩
  · left; exact h
  · right
    have hlen : (s.drop pos).length = s.length - pos := List.length_drop pos s
    refine ⟨h1, by omega, c, hc, ?_⟩
    rw [List.getElem?_drop] at hget
    have e : pos + (find_from chars (List.drop pos s) pos - pos) =
        find_from chars (List.drop pos s) pos := by omega
    rw [e] at hget
    exact hget

theorem substr_mid (pre mid rest : List Char) :
    substr (pre ++ (mid ++ rest)) pre.length mid.length = mid := by
  unfold substr
  rw [List.drop_left, List.take_left]

theorem substr_tail (pre rest : List Char) (n : Nat) (h : rest.length ≤ n) :
    substr (pre ++ rest) pre.length n = rest := by
  unfold substr
  rw [List.drop_left]
  exact List.take_of_length_le h

/-! ## Lemmas : url::_parse_params -/

/-- The loop of `_parse_params` ends within `params.length + 1` rounds. -/
theorem _parse_params_loop_ends (params : List Char) (hlen : params.length < npos) :
    ∀ (fuel pos_sep pos_head : Nat) (m : List (List Char × List Char)),
      (pos_sep = npos ∨ pos_sep < params.length) → pos_head ≤ params.length →
      params.length < fuel + pos_head →
      ∃ m1, _parse_params_loop params fuel pos_sep pos_head m = some m1 := by
  intro fuel
  induction fuel with
  | zero =>
    intro pos_sep pos_head m _ hhead hfuel
    exfalso
    omega
  | succ fuel ih =>
    intro pos_sep pos_head m hsep hhead hfuel
    by_cases hcond : pos_sep > pos_head ∧ pos_sep ≠ npos
    · have hlt : pos_sep < params.length := by
        rcases hsep with h | h
        · exact absurd h hcond.2
        · exact h
      have hinc : size_t_incr pos_sep = pos_sep + 1 :=
        size_t_incr_of_lt _ (by have := npos_succ; omega)
      rw [_parse_params_loop, if_pos hcond]
      simp only [hinc]
      apply ih
      · rcases find_first_of_found params ['&'] (pos_sep + 1) with h | ⟨_, h, _⟩
        · left; exact h
        · right; exact h
      · omega
      · omega
    · exact ⟨m, by rw [_parse_params_loop, if_neg hcond]⟩

theorem substr_length_le (s : List Char) (pos n : Nat) : (substr s pos n).length ≤ s.length := by
  unfold substr
  rw [List.length_take, List.length_drop]
  omega

/-- With something after the `?`, `_parse_params` returns true and only the
parameter map changes. -/
theorem _parse_params_returns (u : url) (pos : Nat) (hlen : u.m_url.length + 1 < npos)
    (hpos : pos < u.m_url.length) :
    ∃ m, u._parse_params pos = outcome.returns (true, { u with m_params := m }) := by
  unfold url._parse_params
  rw [if_neg (by omega)]
  simp only
  generalize hp : (if (substr u.m_url pos npos).getLast? ≠ some '&' then
    substr u.m_url pos npos ++ ['&'] else substr u.m_url pos npos) = params
  have hplen : params.length < npos := by
    have := substr_length_le u.m_url pos npos
    rw [← hp]
    split
    · rw [List.length_append, List.length_singleton]; omega
    · omega
  obtain ⟨m1, hm1⟩ := _parse_params_loop_ends params hplen (params.length + 1)
    (find_first_of params ['&'] 0) 0 u.m_params
    (by
      rcases find_first_of_found params ['&'] 0 with h | ⟨_, h, _⟩
      · left; exact h
      · right; exact h)
    (Nat.zero_le _) (by omega)
  exact ⟨m1, by rw [hm1]⟩

theorem query_text_cons_cons (kv r : List Char × List Char)
    (rs : List (List Char × List Char)) :
    query_text (kv :: r :: rs) = kv.1 ++ '=' :: kv.2 ++ '&' :: query_text (r :: rs) := rfl

theorem query_text_closed_eq (segs : List (List Char × List Char)) (hne : segs ≠ []) :
    query_text segs ++ ['&'] = query_text_closed segs := by
  induction segs with
  | nil => exact absurd rfl hne
  | cons kv rest ih =>
    cases rest with
    | nil => simp [query_text, query_text_closed]
    | cons r rs =>
      have := ih (List.cons_ne_nil r rs)
      simp only [query_text, query_text_closed, List.append_assoc, List.cons_append] at this ⊢
      rw [this]

theorem query_text_tail (segs : List (List Char × List Char)) (hne : segs ≠ [])
    (hok : ∀ kv ∈ segs, segment_ok kv) :
    ∃ a v : List Char, query_text segs = a ++ v ∧ v ≠ [] ∧ '&' ∉ v := by
  induction segs with
  | nil => exact absurd rfl hne
  | cons kv rest ih =>
    cases rest with
    | nil =>
      obtain ⟨_, _, _, hv, hamp⟩ := hok kv (List.mem_cons_self _ _)
      exact ⟨kv.1 ++ ['='], kv.2, by simp [query_text], hv, hamp⟩
    | cons r rs =>
      obtain ⟨a, v, hq, hv, hamp⟩ := ih (List.cons_ne_nil r rs)
        (fun x hx => hok x (List.mem_cons_of_mem _ hx))
      refine ⟨kv.1 ++ '=' :: kv.2 ++ '&' :: a, v, ?_, hv, hamp⟩
      rw [query_text_cons_cons, hq]
      simp

theorem query_text_last (segs : List (List Char × List Char)) (hne : segs ≠ [])
    (hok : ∀ kv ∈ segs, segment_ok kv) : (query_text segs).getLast? ≠ some '&' := by
  obtain ⟨a, v, hq, hv, hamp⟩ := query_text_tail segs hne hok
  rw [hq, List.getLast?_append_of_ne_nil a hv]
  intro h
  exact hamp (List.mem_of_getLast?_eq_some h)

theorem query_text_closed_length (segs : List (List Char × List Char)) :
    segs.length ≤ (query_text_closed segs).length := by
  induction segs with
  | nil => simp
  | cons kv rest ih =>
    simp only [query_text_closed, List.length_cons, List.length_append]
    omega

/-- The loop of `_parse_params` on well-formed segments: every segment is
handed to `emplace`, in order. -/
theorem _parse_params_loop_segments (segs : List (List Char × List Char)) :
    ∀ (pre : List Char) (m : List (List Char × List Char)) (fuel : Nat),
      (∀ kv ∈ segs, segment_ok kv) → segs.length < fuel →
      (pre ++ query_text_closed segs).length < npos →
      _parse_params_loop (pre ++ query_text_closed segs) fuel
          (find_first_of (pre ++ query_text_closed segs) ['&'] pre.length) pre.length m =
        some (segs.foldl (fun acc kv => emplace acc kv.1 kv.2) m) := by
  induction segs with
  | nil =>
    intro pre m fuel _ hf _
    cases fuel with
    | zero => simp at hf
    | succ f =>
      have hfind : find_first_of (pre ++ query_text_closed []) ['&'] pre.length = npos :=
        find_first_of_absent pre [] ['&'] (by simp)
      rw [hfind, _parse_params_loop, if_neg (by simp)]
      rfl
  | cons kv rest ih =>
    intro pre m fuel hok hf hlen
    obtain ⟨k, v⟩ := kv
    obtain ⟨hk, hkeq, hkamp, hv, hvamp⟩ := hok (k, v) (List.mem_cons_self _ _)
    simp only at hk hkeq hkamp hv hvamp
    cases fuel with
    | zero => simp at hf
    | succ f =>
      have hparams : pre ++ query_text_closed ((k, v) :: rest) =
          pre ++ ((k ++ '=' :: v) ++ '&' :: query_text_closed rest) := rfl
      have hparams2 : pre ++ query_text_closed ((k, v) :: rest) =
          (pre ++ ((k ++ '=' :: v) ++ ['&'])) ++ query_text_closed rest := by
        rw [hparams]; simp
      have hseglen : (k ++ '=' :: v).length = k.length + 1 + v.length := by
        simp; omega
      have hklen : 0 < k.length := List.length_pos.mpr hk
      have hvlen : 0 < v.length := List.length_pos.mpr hv
      have htotal : pre.length + (k ++ '=' :: v).length + 1 ≤
          (pre ++ query_text_closed ((k, v) :: rest)).length := by
        rw [hparams2]; simp; omega
      have hnoamp : ∀ x ∈ k ++ '=' :: v, x ∉ ['&'] := by
        intro x hx hmem
        simp only [List.mem_singleton] at hmem
        subst hmem
        rcases List.mem_append.mp hx with h | h
        · exact hkamp h
        · rcases List.mem_cons.mp h with h | h
          · exact absurd h (by decide)
          · exact hvamp h
      have hfind : find_first_of (pre ++ query_text_closed ((k, v) :: rest)) ['&'] pre.length =
          pre.length + (k ++ '=' :: v).length := by
        rw [hparams]
        exact find_first_of_skip pre (k ++ '=' :: v) '&' (query_text_closed rest) ['&'] hnoamp
          (by simp)
      have hcond : pre.length + (k ++ '=' :: v).length > pre.length ∧
          pre.length + (k ++ '=' :: v).length ≠ npos := by
        constructor <;> omega
      have hparam : substr (pre ++ query_text_closed ((k, v) :: rest)) pre.length
          (pre.length + (k ++ '=' :: v).length - pre.length) = k ++ '=' :: v := by
        rw [Nat.add_sub_cancel_left, hparams]
        exact substr_mid pre (k ++ '=' :: v) ('&' :: query_text_closed rest)
      have hequal : find_first_of (k ++ '=' :: v) ['='] 0 = k.length := by
        have := find_first_of_skip [] k '=' v ['=']
          (fun x hx hmem => by
            simp only [List.mem_singleton] at hmem
            subst hmem
            exact hkeq hx)
          (by simp)
        simpa using this
      have hinc_eq : size_t_incr k.length = k.length + 1 :=
        size_t_incr_of_lt _ (by have := npos_succ; omega)
      have hname : substr (k ++ '=' :: v) 0 k.length = k := by
        have := substr_mid [] k ('=' :: v)
        simpa using this
      have hvalue : substr (k ++ '=' :: v) (k.length + 1) npos = v := by
        have := substr_tail (k ++ ['=']) v npos (by omega)
        simpa using this
      have hinc_sep : size_t_incr (pre.length + (k ++ '=' :: v).length) =
          pre.length + (k ++ '=' :: v).length + 1 :=
        size_t_incr_of_lt _ (by have := npos_succ; omega)
      have hprelen : (pre ++ ((k ++ '=' :: v) ++ ['&'])).length =
          pre.length + (k ++ '=' :: v).length + 1 := by
        simp; omega
      have hih := ih (pre ++ ((k ++ '=' :: v) ++ ['&'])) (emplace m k v) f
        (fun x hx => hok x (List.mem_cons_of_mem _ hx)) (by simpa using hf)
        (by rw [← hparams2]; exact hlen)
      rw [← hparams2, hprelen] at hih
      rw [hfind, _parse_params_loop, if_pos hcond]
      simp only [hparam, hequal, hinc_eq, hname, hvalue, hinc_sep]
      rw [if_pos ⟨hklen, by omega⟩, hih]
      rfl

/-- On a query of well-formed segments `_parse_params` returns true after
handing every segment to `emplace`, in order; nothing else changes. -/
theorem _parse_params_query (u : url) (pre : List Char) (segs : List (List Char × List Char))
    (hne : segs ≠ []) (hok : ∀ kv ∈ segs, segment_ok kv)
    (hurl : u.m_url = pre ++ query_text segs) (hlen : u.m_url.length + 1 < npos) :
    u._parse_params pre.length =
      outcome.returns (true,
        { u with m_params := segs.foldl (fun acc kv => emplace acc kv.1 kv.2) u.m_params }) := by
  have hqlen : 0 < (query_text segs).length := by
    obtain ⟨a, v, hq, hv, _⟩ := query_text_tail segs hne hok
    rw [hq, List.length_append]
    have := List.length_pos.mpr hv
    omega
  have hulen : u.m_url.length = pre.length + (query_text segs).length := by
    rw [hurl, List.length_append]
  unfold url._parse_params
  rw [if_neg (by omega)]
  have hsub : substr u.m_url pre.length npos = query_text segs := by
    rw [hurl]
    exact substr_tail pre (query_text segs) npos (by omega)
  simp only [hsub]
  rw [if_pos (query_text_last segs hne hok), query_text_closed_eq segs hne]
  have hloop := _parse_params_loop_segments segs [] u.m_params
    ((query_text_closed segs).length + 1) hok
    (by have := query_text_closed_length segs; omega)
    (by
      rw [List.nil_append, ← query_text_closed_eq segs hne, List.length_append,
        List.length_singleton]
      omega)
  simp only [List.nil_append, List.length_nil] at hloop
  rw [hloop]

/-! ## Lemmas : the parameter map -/

theorem lookup_emplace (m : List (List Char × List Char)) (k v x : List Char) :
    (emplace m k v).lookup x = (m.lookup x).or (if x = k then some v else none) := by
  unfold emplace
  by_cases hk : (m.lookup k).isSome
  · rw [if_pos hk]
    by_cases hx : x = k
    · subst hx
      obtain ⟨w, hw⟩ := Option.isSome_iff_exists.mp hk
      rw [hw]; rfl
    · rw [if_neg hx]; simp
  · rw [if_neg hk, List.lookup_append]
    by_cases hx : x = k
    · subst hx; simp
    · rw [if_neg hx]
      have hb : (x == k) = false := by simpa using hx
      have : ([(k, v)] : List (List Char × List Char)).lookup x = none := by
        rw [List.lookup_cons, hb]; rfl
      rw [this]

theorem lookup_foldl_emplace (segs : List (List Char × List Char)) :
    ∀ (m : List (List Char × List Char)) (x : List Char),
      (segs.foldl (fun acc kv => emplace acc kv.1 kv.2) m).lookup x =
        (m.lookup x).or (segs.lookup x) := by
  induction segs with
  | nil => intro m x; simp
  | cons kv rest ih =>
    intro m x
    rw [List.foldl_cons, ih, lookup_emplace]
    by_cases hx : x = kv.1
    · subst hx
      rw [if_pos rfl]
      have : (kv :: rest).lookup kv.1 = some kv.2 := by
        obtain ⟨k, v⟩ := kv
        simp
      rw [this]
      cases m.lookup kv.1 <;> simp
    · rw [if_neg hx]
      have : (kv :: rest).lookup x = rest.lookup x := by
        obtain ⟨k, v⟩ := kv
        have hb : (x == k) = false := by simpa using hx
        rw [List.lookup_cons, hb]
      rw [this]
      cases m.lookup x <;> simp

theorem lookup_eq_none_of_not_mem (segs : List (List Char × List Char)) (x : List Char)
    (h : x ∉ segs.map Prod.fst) : segs.lookup x = none := by
  induction segs with
  | nil => rfl
  | cons kv rest ih =>
    obtain ⟨k, v⟩ := kv
    simp only [List.map_cons, List.mem_cons, not_or] at h
    have hne : (x == k) = false := by simpa using h.1
    rw [List.lookup_cons, hne]
    exact ih h.2

theorem lookup_of_mem_nodup (segs : List (List Char × List Char))
    (hnd : (segs.map Prod.fst).Nodup) (kv : List Char × List Char) (hkv : kv ∈ segs) :
    segs.lookup kv.1 = some kv.2 := by
  induction segs with
  | nil => simp at hkv
  | cons a rest ih =>
    obtain ⟨k, v⟩ := a
    rw [List.map_cons, List.nodup_cons] at hnd
    rcases List.mem_cons.mp hkv with h | h
    · subst h; simp
    · have hne : kv.1 ≠ k := by
        intro heq
        have hmem : kv.1 ∈ rest.map Prod.fst := List.mem_map_of_mem Prod.fst h
        exact hnd.1 (heq ▸ hmem)
      have hb : (kv.1 == k) = false := by simpa using hne
      rw [List.lookup_cons, hb]
      exact ih hnd.2 h

theorem foldl_emplace_nodup (segs : List (List Char × List Char)) :
    ∀ m : List (List Char × List Char), ((m ++ segs).map Prod.fst).Nodup →
      segs.foldl (fun acc kv => emplace acc kv.1 kv.2) m = m ++ segs := by
  induction segs with
  | nil => intro m _; simp
  | cons kv rest ih =>
    intro m hnd
    have hnot : kv.1 ∉ m.map Prod.fst := by
      rw [List.map_append, List.map_cons] at hnd
      have := (List.nodup_append.mp hnd).2.2
      intro hmem
      exact this hmem (List.mem_cons_self _ _)
    have hem : emplace m kv.1 kv.2 = m ++ [kv] := by
      unfold emplace
      rw [lookup_eq_none_of_not_mem m kv.1 hnot]
      simp
    rw [List.foldl_cons, hem, ih (m ++ [kv]) (by simpa using hnd)]
    simp

/-! ## Lemmas : the stages of the url parser -/

theorem find_first_of_at (s pre mid : List Char) (c : Char) (rest chars : List Char) (n : Nat)
    (hs : s = pre ++ (mid ++ c :: rest)) (hn : n = pre.length)
    (hmid : ∀ x ∈ mid, x ∉ chars) (hc : c ∈ chars) :
    find_first_of s chars n = n + mid.length := by
  subst hs hn
  exact find_first_of_skip pre mid c rest chars hmid hc

theorem substr_at (s pre mid rest : List Char) (n k : Nat)
    (hs : s = pre ++ (mid ++ rest)) (hn : n = pre.length) (hk : k = mid.length) :
    substr s n k = mid := by
  subst hs hn hk
  exact substr_mid pre mid rest

theorem not_mem_singleton_of (c : Char) (l : List Char) (h : c ∉ l) :
    ∀ x ∈ l, x ∉ [c] := by
  intro x hx hmem
  rw [List.mem_singleton] at hmem
  exact h (hmem ▸ hx)

theorem _parse_sqlite_at (u : url) (pre p q : List Char) (n : Nat)
    (hurl : u.m_url = pre ++ (p ++ '?' :: q)) (hn : n = pre.length)
    (hp : p ≠ []) (hpq : '?' ∉ p) (hlen : u.m_url.length + 1 < npos) :
    u._parse_sqlite n = url._parse_params { u with m_dbname := p } (n + p.length + 1) := by
  have hplen : 0 < p.length := List.length_pos.mpr hp
  have hulen : u.m_url.length = pre.length + (p.length + (q.length + 1)) := by
    rw [hurl]; simp
  have hfind : find_first_of u.m_url ['?'] n = n + p.length :=
    find_first_of_at u.m_url pre p '?' q ['?'] n hurl hn (not_mem_singleton_of '?' p hpq)
      (by simp)
  have hinc : size_t_incr (n + p.length) = n + p.length + 1 :=
    size_t_incr_of_lt _ (by have := npos_succ; omega)
  unfold url._parse_sqlite
  simp only [hfind, hinc]
  rw [if_neg (by omega), Nat.add_sub_cancel_left,
    substr_at u.m_url pre p ('?' :: q) n p.length hurl hn rfl]

theorem _parse_oracle_by_service_at (u : url) (pre p q : List Char) (n : Nat)
    (hurl : u.m_url = pre ++ (p ++ '?' :: q)) (hn : n = pre.length)
    (hp : p ≠ []) (hpq : '?' ∉ p) (hlen : u.m_url.length + 1 < npos) :
    u._parse_oracle_by_service n =
      url._parse_params { u with m_host := p } (n + p.length + 1) := by
  have hplen : 0 < p.length := List.length_pos.mpr hp
  have hulen : u.m_url.length = pre.length + (p.length + (q.length + 1)) := by
    rw [hurl]; simp
  have hfind : find_first_of u.m_url ['?'] n = n + p.length :=
    find_first_of_at u.m_url pre p '?' q ['?'] n hurl hn (not_mem_singleton_of '?' p hpq)
      (by simp)
  have hinc : size_t_incr (n + p.length) = n + p.length + 1 :=
    size_t_incr_of_lt _ (by have := npos_succ; omega)
  unfold url._parse_oracle_by_service
  simp only [hfind, hinc]
  rw [if_neg (by omega), Nat.add_sub_cancel_left,
    substr_at u.m_url pre p ('?' :: q) n p.length hurl hn rfl]

theorem _parse_standard_at (u : url) (pre h p d q : List Char) (n : Nat)
    (hurl : u.m_url = pre ++ (h ++ ':' :: (p ++ '/' :: (d ++ '?' :: q)))) (hn : n = pre.length)
    (hh : h ≠ []) (hhc : ':' ∉ h) (hp : p ≠ []) (hpc : '/' ∉ p)
    (hd : d ≠ []) (hdc : '?' ∉ d) (hlen : u.m_url.length + 1 < npos) :
    u._parse_standard n =
      url._parse_params { u with m_host := h, m_port := p, m_dbname := d }
        (n + h.length + 1 + p.length + 1 + d.length + 1) := by
  have hhlen : 0 < h.length := List.length_pos.mpr hh
  have hplen : 0 < p.length := List.length_pos.mpr hp
  have hdlen : 0 < d.length := List.length_pos.mpr hd
  have hulen : u.m_url.length =
      pre.length + (h.length + (p.length + (d.length + (q.length + 1) + 1) + 1)) := by
    rw [hurl]; simp
  have hurl2 : u.m_url = (pre ++ (h ++ [':'])) ++ (p ++ '/' :: (d ++ '?' :: q)) := by
    rw [hurl]; simp
  have hurl3 : u.m_url = (pre ++ (h ++ [':']) ++ (p ++ ['/'])) ++ (d ++ '?' :: q) := by
    rw [hurl]; simp
  have hn2 : n + h.length + 1 = (pre ++ (h ++ [':'])).length := by
    rw [hn]; simp; omega
  have hn3 : n + h.length + 1 + p.length + 1 = (pre ++ (h ++ [':']) ++ (p ++ ['/'])).length := by
    rw [hn]; simp; omega
  have hfind1 : find_first_of u.m_url [':'] n = n + h.length :=
    find_first_of_at u.m_url pre h ':' _ [':'] n hurl hn (not_mem_singleton_of ':' h hhc)
      (by simp)
  have hfind2 : find_first_of u.m_url ['/'] (n + h.length + 1) =
      n + h.length + 1 + p.length :=
    find_first_of_at u.m_url _ p '/' _ ['/'] _ hurl2 hn2 (not_mem_singleton_of '/' p hpc)
      (by simp)
  have hfind3 : find_first_of u.m_url ['?'] (n + h.length + 1 + p.length + 1) =
      n + h.length + 1 + p.length + 1 + d.length :=
    find_first_of_at u.m_url _ d '?' q ['?'] _ hurl3 hn3 (not_mem_singleton_of '?' d hdc)
      (by simp)
  have hinc1 : size_t_incr (n + h.length) = n + h.length + 1 :=
    size_t_incr_of_lt _ (by have := npos_succ; omega)
  have hinc2 : size_t_incr (n + h.length + 1 + p.length) = n + h.length + 1 + p.length + 1 :=
    size_t_incr_of_lt _ (by have := npos_succ; omega)
  have hinc3 : size_t_incr (n + h.length + 1 + p.length + 1 + d.length) =
      n + h.length + 1 + p.length + 1 + d.length + 1 :=
    size_t_incr_of_lt _ (by have := npos_succ; omega)
  unfold url._parse_standard
  simp only [hfind1, hinc1, hfind2, hinc2, hfind3, hinc3]
  rw [if_neg (by omega), if_neg (by omega), if_neg (by omega), Nat.add_sub_cancel_left,
    Nat.add_sub_cancel_left, Nat.add_sub_cancel_left,
    substr_at u.m_url pre h _ n h.length hurl hn rfl,
    substr_at u.m_url _ p _ _ p.length hurl2 hn2 rfl,
    substr_at u.m_url _ d _ _ d.length hurl3 hn3 rfl]

theorem erase_head_loop_letter (fuel : Nat) (c0 : Char) (l : List Char)
    (hletter : is_letter c0 = true) : erase_head_loop (fuel + 1) (c0 :: l) = some (c0 :: l) := by
  simp [erase_head_loop, hletter]

theorem size_t_add_of_lt (a b : Nat) (h : a + b < SIZE_T_MOD) : size_t_add a b = a + b := by
  unfold size_t_add
  exact Nat.mod_eq_of_lt h

/-- The first stage of `_parse_url` on a text that starts with a letter, has
no `:` and no `/` before `://`, and goes on after `://`: the branch taken
depends on the lower-cased text before `://`, and parsing goes on three
characters after it. -/
theorem _parse_url_scheme (u : url) (c0 : Char) (t0 rest : List Char)
    (hletter : is_letter c0 = true) (hcolon : ':' ∉ c0 :: t0) (hslash : '/' ∉ c0 :: t0)
    (hrest : rest ≠ [])
    (hlen : ((c0 :: t0) ++ ':' :: '/' :: '/' :: rest).length + 1 < npos) :
    url._parse_url u ((c0 :: t0) ++ ':' :: '/' :: '/' :: rest) =
      if (c0 :: t0).map Char.toLower = "mysql".toList then
        url._parse_mysql { u with m_url := (c0 :: t0) ++ ':' :: '/' :: '/' :: rest,
                                  m_dbtype := (c0 :: t0).map Char.toLower } ((c0 :: t0).length + 3)
      else if (c0 :: t0).map Char.toLower = "oracle".toList then
        url._parse_oracle { u with m_url := (c0 :: t0) ++ ':' :: '/' :: '/' :: rest,
                                   m_dbtype := (c0 :: t0).map Char.toLower } ((c0 :: t0).length + 3)
      else if (c0 :: t0).map Char.toLower = "postgresql".toList then
        url._parse_postgresql { u with m_url := (c0 :: t0) ++ ':' :: '/' :: '/' :: rest,
                                       m_dbtype := (c0 :: t0).map Char.toLower }
          ((c0 :: t0).length + 3)
      else if (c0 :: t0).map Char.toLower = "sqlite".toList then
        url._parse_sqlite { u with m_url := (c0 :: t0) ++ ':' :: '/' :: '/' :: rest,
                                   m_dbtype := (c0 :: t0).map Char.toLower } ((c0 :: t0).length + 3)
      else if (c0 :: t0).map Char.toLower = "sqlserver".toList then
        url._parse_sqlserver { u with m_url := (c0 :: t0) ++ ':' :: '/' :: '/' :: rest,
                                      m_dbtype := (c0 :: t0).map Char.toLower }
          ((c0 :: t0).length + 3)
      else outcome.throws "unknown database type." := by
  have hrlen : 0 < rest.length := List.length_pos.mpr hrest
  have hslen : ((c0 :: t0) ++ ':' :: '/' :: '/' :: rest).length =
      (c0 :: t0).length + 3 + rest.length := by
    simp; omega
  have hmid : ∀ x ∈ c0 :: t0, x ∉ "://".toList := by
    intro x hx hmem
    have : x = ':' ∨ x = '/' := by
      have h3 : "://".toList = [':', '/', '/'] := rfl
      rw [h3] at hmem
      simpa using hmem
    rcases this with h | h
    · exact hcolon (h ▸ hx)
    · exact hslash (h ▸ hx)
  have hfind : find_first_of ((c0 :: t0) ++ ':' :: '/' :: '/' :: rest) "://".toList 0 =
      (c0 :: t0).length := by
    have := find_first_of_at ((c0 :: t0) ++ ':' :: '/' :: '/' :: rest) [] (c0 :: t0) ':'
      ('/' :: '/' :: rest) "://".toList 0 rfl rfl hmid (by decide)
    simpa using this
  have hsub : substr ((c0 :: t0) ++ ':' :: '/' :: '/' :: rest) 0 ((c0 :: t0).length - 0) =
      c0 :: t0 :=
    substr_at _ [] (c0 :: t0) (':' :: '/' :: '/' :: rest) 0 _ rfl rfl (by simp)
  have hadd : size_t_add (c0 :: t0).length "://".length = (c0 :: t0).length + 3 := by
    have h3 : "://".length = 3 := by decide
    rw [h3]
    exact size_t_add_of_lt _ _ (by have := npos_succ; omega)
  have hpos : 0 < (c0 :: t0).length := by simp
  unfold url._parse_url
  rw [if_neg (by simp)]
  have hloop : erase_head_loop (((c0 :: t0) ++ ':' :: '/' :: '/' :: rest).length + 1)
      ((c0 :: t0) ++ ':' :: '/' :: '/' :: rest) =
        some ((c0 :: t0) ++ ':' :: '/' :: '/' :: rest) := by
    rw [List.cons_append]
    exact erase_head_loop_letter _ c0 _ hletter
  rw [hloop]
  simp only [hfind, hsub, hadd]
  rw [if_neg (by omega), if_neg (by omega)]

/-! ## The pool : shutdown -/

/-- C11, the claim at an input. In `world_one_leased` the lease on `conn1` is
outstanding and `conn0` is idle. The destructor, with its assertion, does not
run although the application has given up its last pointer to the pool, for
the lease owns the pool object; and `destroy()` stops the reaper, deletes
`conn0` and returns with `leased_count` still 1, having evaluated no
assertion: no invariant-violation path is taken. -/
theorem lease_outstanding_no_assertion :
    reachable world_one_leased ∧
    world_one_leased.leases = [conn1] ∧
    world_one_leased.use_count 0 = 1 ∧
    world_one_leased.destructor 0 = none ∧
    world_one_leased.p.destroy =
      (⟨"sqlite", true, true, [], 1, 2, 30, 3000, 3, 60⟩, [conn0]) ∧
    world_one_leased.shutdown.leases = [conn1] :=
  ⟨world_one_leased_reachable, by decide, by decide, by decide, by decide, by decide⟩

/-- C11, amended. In every pool state whose reaper has been started,
`destroy` stops the reaper, leaves idle empty, deletes every previously idle
instance and changes neither `leased_count` nor the leases nor any other
member, and it evaluates no assertion. The destructor runs exactly when the
application holds no pointer to the pool and no lease is outstanding; where
`leased_count` counts the outstanding leases its assertion then holds, so
that with at least one lease outstanding the pool is not torn down and the
assertion is never found false. -/
theorem shutdown_and_teardown (w : world) (hthread : w.p.m_sweep_thread_ptr = true)
    (hu : w.p.m_using_count = w.leases.length) :
    w.p.destroy.1 = { w.p with m_stopped := true, m_connections := [] } ∧
    w.p.destroy.2 = w.p.m_connections ∧
    w.p.destroy.1.m_using_count = w.p.m_using_count ∧
    w.shutdown.leases = w.leases ∧
    (∀ owners : Nat, (w.destructor owners).isSome = true ↔ (owners = 0 ∧ w.leases = [])) ∧
    (w.leases = [] → w.destructor 0 =
      some ⟨{ w.p with m_stopped := true, m_connections := [] }, w.p.m_connections, true⟩) ∧
    (∀ (owners : Nat) (d : destructed), w.destructor owners = some d →
      d.assertion_holds = true) ∧
    (w.leases ≠ [] → ∀ owners : Nat, w.destructor owners = none) := by
  have hd : w.p.destroy =
      ({ w.p with m_stopped := true, m_connections := [] }, w.p.m_connections) := by
    obtain ⟨⟨db, st, th, conns, uc, ic, ct, et, mc, si⟩, leases, na⟩ := w
    simp only at hthread
    subst hthread
    cases st <;> cases conns <;> simp [pool.destroy, pool.joinable]
  have hcount : ∀ owners : Nat, w.use_count owners = 0 ↔ (owners = 0 ∧ w.leases = []) := by
    intro owners
    unfold world.use_count
    rw [Nat.add_eq_zero_iff, List.length_eq_zero]
  have hsome : ∀ owners : Nat, (w.destructor owners).isSome = true ↔
      (owners = 0 ∧ w.leases = []) := by
    intro owners
    unfold world.destructor
    by_cases h0 : w.use_count owners = 0
    · rw [if_pos h0]
      simp only [Option.isSome_some, true_iff]
      exact (hcount owners).mp h0
    · rw [if_neg h0]
      simp only [Option.isSome_none, Bool.false_eq_true, false_iff]
      exact fun h => h0 ((hcount owners).mpr h)
  have hholds : ∀ (owners : Nat) (d : destructed), w.destructor owners = some d →
      d.assertion_holds = true := by
    intro owners d hdes
    unfold world.destructor at hdes
    by_cases h0 : w.use_count owners = 0
    · rw [if_pos h0] at hdes
      have hl : w.leases = [] := ((hcount owners).mp h0).2
      have huc : w.p.destroy.1.m_using_count = 0 := by
        rw [hd]
        show w.p.m_using_count = 0
        rw [hu, hl]
        rfl
      cases hdes
      simp [huc]
    · rw [if_neg h0] at hdes
      cases hdes
  refine ⟨by rw [hd], by rw [hd], by rw [hd], rfl, hsome, ?_, hholds, ?_⟩
  · intro hl
    have h0 : w.use_count 0 = 0 := (hcount 0).mpr ⟨rfl, hl⟩
    have huc : w.p.m_using_count = 0 := by rw [hu, hl]; rfl
    unfold world.destructor
    rw [if_pos h0, hd]
    simp [huc]
  · intro hne owners
    unfold world.destructor
    rw [if_neg (fun h0 => hne ((hcount owners).mp h0).2)]

/-- C11, witness: with `conn0` and `conn1` idle and no lease outstanding,
shutdown deletes both instances; once the application has given up its
pointer the destructor runs and its assertion holds. -/
theorem shutdown_and_teardown_witness :
    world_both_returned.p.destroy.2 = [conn0, conn1] ∧
    world_both_returned.p.destroy.1.m_connections = [] ∧
    world_both_returned.p.destroy.1.m_stopped = true ∧
    (world_both_returned.destructor 1).isSome = false ∧
    world_both_returned.destructor 0 =
      some ⟨⟨"sqlite", true, true, [], 0, 2, 30, 3000, 3, 60⟩, [conn0, conn1], true⟩ := by
  have h := shutdown_and_teardown world_both_returned (by decide) (by decide)
  refine ⟨by rw [h.2.1]; decide, by rw [h.1], by rw [h.1], ?_, ?_⟩
  · cases hs : (world_both_returned.destructor 1).isSome with
    | false => rfl
    | true => exact absurd ((h.2.2.2.2.1 1).mp hs).1 (by decide)
  · rw [h.2.2.2.2.2.1 (by decide)]; decide

/-! ## Lemmas : whole urls -/

theorem create_of_parse_true (s : List Char) (u : url)
    (h : url._parse_url ⟨[], [], [], [], [], []⟩ s = outcome.returns (true, u)) :
    url.create s = outcome.returns u := by
  unfold url.create
  rw [h]

theorem create_of_parse_throws (s : List Char) (what : String)
    (h : url._parse_url ⟨[], [], [], [], [], []⟩ s = outcome.throws what) :
    url.create s = outcome.throws what := by
  unfold url.create
  rw [h]

theorem _parse_params_query_at (u : url) (pre : List Char) (n : Nat)
    (segs : List (List Char × List Char))
    (hne : segs ≠ []) (hok : ∀ kv ∈ segs, segment_ok kv)
    (hurl : u.m_url = pre ++ query_text segs) (hn : n = pre.length)
    (hlen : u.m_url.length + 1 < npos) :
    u._parse_params n =
      outcome.returns (true,
        { u with m_params := segs.foldl (fun acc kv => emplace acc kv.1 kv.2) u.m_params }) := by
  subst hn
  exact _parse_params_query u pre segs hne hok hurl hlen

/-- A sqlite url: the text between `://` and the first `?` becomes the
database name, and parsing goes on with the parameters. -/
theorem _parse_url_sqlite (p q : List Char) (hp : p ≠ []) (hpq : '?' ∉ p)
    (hlen : ("sqlite://".toList ++ p ++ '?' :: q).length + 1 < npos) :
    url._parse_url ⟨[], [], [], [], [], []⟩ ("sqlite://".toList ++ p ++ '?' :: q) =
      url._parse_params
        ⟨"sqlite://".toList ++ p ++ '?' :: q, [], "sqlite".toList, p, [], []⟩
        (9 + p.length + 1) := by
  have e : "sqlite://".toList ++ p ++ '?' :: q =
      ('s' :: "qlite".toList) ++ ':' :: '/' :: '/' :: (p ++ '?' :: q) := by
    simp
  have hscheme := _parse_url_scheme ⟨[], [], [], [], [], []⟩ 's' "qlite".toList (p ++ '?' :: q)
    (by decide) (by decide) (by decide) (by simp) (by rw [← e]; exact hlen)
  rw [← e] at hscheme
  rw [hscheme, if_neg (by decide), if_neg (by decide), if_neg (by decide), if_pos (by decide)]
  have hat := _parse_sqlite_at
    ⟨"sqlite://".toList ++ p ++ '?' :: q, [], List.map Char.toLower ('s' :: "qlite".toList),
      [], [], []⟩
    "sqlite://".toList p q 9 (by simp) (by decide) hp hpq hlen
  have hlow : List.map Char.toLower ('s' :: "qlite".toList) = "sqlite".toList := by decide
  have h9 : ('s' :: "qlite".toList).length + 3 = 9 := by decide
  rw [h9, hat, hlow]

theorem _parse_url_mysql (rest : List Char) (hrest : rest ≠ [])
    (hlen : ("mysql://".toList ++ rest).length + 1 < npos) :
    url._parse_url ⟨[], [], [], [], [], []⟩ ("mysql://".toList ++ rest) =
      url._parse_standard ⟨"mysql://".toList ++ rest, [], "mysql".toList, [], [], []⟩ 8 := by
  have e : "mysql://".toList ++ rest = ('m' :: "ysql".toList) ++ ':' :: '/' :: '/' :: rest := by
    simp
  have hscheme := _parse_url_scheme ⟨[], [], [], [], [], []⟩ 'm' "ysql".toList rest
    (by decide) (by decide) (by decide) hrest (by rw [← e]; exact hlen)
  rw [← e] at hscheme
  have hlow : List.map Char.toLower ('m' :: "ysql".toList) = "mysql".toList := by decide
  have hn : ('m' :: "ysql".toList).length + 3 = 8 := by decide
  rw [hscheme, hlow, hn, if_pos (by decide)]
  rfl

theorem _parse_url_postgresql (rest : List Char) (hrest : rest ≠ [])
    (hlen : ("postgresql://".toList ++ rest).length + 1 < npos) :
    url._parse_url ⟨[], [], [], [], [], []⟩ ("postgresql://".toList ++ rest) =
      url._parse_standard ⟨"postgresql://".toList ++ rest, [], "postgresql".toList, [], [], []⟩ 13 := by
  have e : "postgresql://".toList ++ rest = ('p' :: "ostgresql".toList) ++ ':' :: '/' :: '/' :: rest := by
    simp
  have hscheme := _parse_url_scheme ⟨[], [], [], [], [], []⟩ 'p' "ostgresql".toList rest
    (by decide) (by decide) (by decide) hrest (by rw [← e]; exact hlen)
  rw [← e] at hscheme
  have hlow : List.map Char.toLower ('p' :: "ostgresql".toList) = "postgresql".toList := by decide
  have hn : ('p' :: "ostgresql".toList).length + 3 = 13 := by decide
  rw [hscheme, hlow, hn, if_neg (by decide), if_neg (by decide), if_pos (by decide)]
  rfl

theorem _parse_url_sqlserver (rest : List Char) (hrest : rest ≠ [])
    (hlen : ("sqlserver://".toList ++ rest).length + 1 < npos) :
    url._parse_url ⟨[], [], [], [], [], []⟩ ("sqlserver://".toList ++ rest) =
      url._parse_standard ⟨"sqlserver://".toList ++ rest, [], "sqlserver".toList, [], [], []⟩ 12 := by
  have e : "sqlserver://".toList ++ rest = ('s' :: "qlserver".toList) ++ ':' :: '/' :: '/' :: rest := by
    simp
  have hscheme := _parse_url_scheme ⟨[], [], [], [], [], []⟩ 's' "qlserver".toList rest
    (by decide) (by decide) (by decide) hrest (by rw [← e]; exact hlen)
  rw [← e] at hscheme
  have hlow : List.map Char.toLower ('s' :: "qlserver".toList) = "sqlserver".toList := by decide
  have hn : ('s' :: "qlserver".toList).length + 3 = 12 := by decide
  rw [hscheme, hlow, hn, if_neg (by decide), if_neg (by decide), if_neg (by decide),
    if_neg (by decide), if_pos (by decide)]
  rfl

theorem _parse_url_oracle (rest : List Char) (hrest : rest ≠ [])
    (hlen : ("oracle://".toList ++ rest).length + 1 < npos) :
    url._parse_url ⟨[], [], [], [], [], []⟩ ("oracle://".toList ++ rest) =
      url._parse_oracle ⟨"oracle://".toList ++ rest, [], "oracle".toList, [], [], []⟩ 9 := by
  have e : "oracle://".toList ++ rest = ('o' :: "racle".toList) ++ ':' :: '/' :: '/' :: rest := by
    simp
  have hscheme := _parse_url_scheme ⟨[], [], [], [], [], []⟩ 'o' "racle".toList rest
    (by decide) (by decide) (by decide) hrest (by rw [← e]; exact hlen)
  rw [← e] at hscheme
  have hlow : List.map Char.toLower ('o' :: "racle".toList) = "oracle".toList := by decide
  have hn : ('o' :: "racle".toList).length + 3 = 9 := by decide
  rw [hscheme, hlow, hn, if_neg (by decide), if_pos (by decide)]

/-- With host, port, database name and something after the `?`,
`_parse_standard` returns true with the three fields stored. -/
theorem _parse_standard_returns (u : url) (pre h p d q : List Char) (n : Nat)
    (hurl : u.m_url = pre ++ (h ++ ':' :: (p ++ '/' :: (d ++ '?' :: q)))) (hn : n = pre.length)
    (hh : h ≠ []) (hhc : ':' ∉ h) (hp : p ≠ []) (hpc : '/' ∉ p)
    (hd : d ≠ []) (hdc : '?' ∉ d) (hq : q ≠ []) (hlen : u.m_url.length + 1 < npos) :
    ∃ m, u._parse_standard n =
      outcome.returns (true,
        { u with m_host := h, m_port := p, m_dbname := d, m_params := m }) := by
  rw [_parse_standard_at u pre h p d q n hurl hn hh hhc hp hpc hd hdc hlen]
  have hqlen : 0 < q.length := List.length_pos.mpr hq
  have hulen : u.m_url.length =
      pre.length + (h.length + (p.length + (d.length + (q.length + 1) + 1) + 1)) := by
    rw [hurl]; simp
  obtain ⟨m, hm⟩ := _parse_params_returns
    { u with m_host := h, m_port := p, m_dbname := d }
    (n + h.length + 1 + p.length + 1 + d.length + 1) hlen (by simp only; omega)
  exact ⟨m, hm⟩

/-! ## The url : accepted forms -/

/-- C12. For every non-empty path `p` without `?` and every non-empty query
`q`, parsing `sqlite://p?q` yields `dbtype = sqlite`, `dbname = p` exactly
(a leading `/` is kept) and empty host and port; in particular
`sqlite:///tmp/x.db?synchronous=normal&heap_limit=8000` yields the database
name `/tmp/x.db` and exactly the two parameters. -/
theorem parse_sqlite_url (p q : List Char) (hp : p ≠ []) (hpq : '?' ∉ p) (hq : q ≠ [])
    (hlen : ("sqlite://".toList ++ p ++ '?' :: q).length + 1 < npos) :
    (∃ m, url.create ("sqlite://".toList ++ p ++ '?' :: q) =
      outcome.returns ⟨"sqlite://".toList ++ p ++ '?' :: q, [], "sqlite".toList, p, [], m⟩) ∧
    url.create "sqlite:///tmp/x.db?synchronous=normal&heap_limit=8000".toList =
      outcome.returns
        ⟨"sqlite:///tmp/x.db?synchronous=normal&heap_limit=8000".toList, [], "sqlite".toList,
          "/tmp/x.db".toList, [],
          [("synchronous".toList, "normal".toList), ("heap_limit".toList, "8000".toList)]⟩ := by
  refine ⟨?_, by decide⟩
  have hqlen : 0 < q.length := List.length_pos.mpr hq
  obtain ⟨m, hm⟩ := _parse_params_returns
    ⟨"sqlite://".toList ++ p ++ '?' :: q, [], "sqlite".toList, p, [], []⟩ (9 + p.length + 1)
    hlen (by simp; omega)
  refine ⟨m, create_of_parse_true _ _ ?_⟩
  rw [_parse_url_sqlite p q hp hpq hlen, hm]

/-- C12, witness: the path `/tmp/x.db` and the query `a=1`. -/
theorem parse_sqlite_url_witness :
    ∃ m, url.create ("sqlite://".toList ++ "/tmp/x.db".toList ++ '?' :: "a=1".toList) =
      outcome.returns ⟨"sqlite://".toList ++ "/tmp/x.db".toList ++ '?' :: "a=1".toList, [],
        "sqlite".toList, "/tmp/x.db".toList, [], m⟩ :=
  (parse_sqlite_url "/tmp/x.db".toList "a=1".toList (by decide) (by decide) (by decide)
    (by unfold npos SIZE_T_MOD; decide)).1

/-- C13. For every scheme `s` among mysql, postgresql, sqlserver and oracle,
every non-empty host `h` without `:` that does not start with `/`, every
non-empty port `p` without `/`, every non-empty database name `d` without `?`
and every non-empty query `q`, parsing `s://h:p/d?q` yields `dbtype = s`,
`host = h`, `port = p` and `dbname = d`; in particular
`mysql://localhost:3306/test?user=root&password=swordfish` yields host
`localhost`, port `3306`, database name `test` and the two parameters. -/
theorem parse_network_url (s h p d q : List Char)
    (hs : s = "mysql".toList ∨ s = "postgresql".toList ∨ s = "sqlserver".toList ∨
      s = "oracle".toList)
    (hh : h ≠ []) (hhc : ':' ∉ h) (hh0 : h.head? ≠ some '/') (hp : p ≠ []) (hpc : '/' ∉ p)
    (hd : d ≠ []) (hdc : '?' ∉ d) (hq : q ≠ [])
    (hlen : (s ++ "://".toList ++ h ++ ':' :: p ++ '/' :: d ++ '?' :: q).length + 1 < npos) :
    (∃ m, url.create (s ++ "://".toList ++ h ++ ':' :: p ++ '/' :: d ++ '?' :: q) =
      outcome.returns ⟨s ++ "://".toList ++ h ++ ':' :: p ++ '/' :: d ++ '?' :: q, h, s, d, p, m⟩) ∧
    url.create "mysql://localhost:3306/test?user=root&password=swordfish".toList =
      outcome.returns
        ⟨"mysql://localhost:3306/test?user=root&password=swordfish".toList, "localhost".toList,
          "mysql".toList, "test".toList, "3306".toList,
          [("user".toList, "root".toList), ("password".toList, "swordfish".toList)]⟩ := by
  refine ⟨?_, by decide⟩
  have hne : h ++ ':' :: (p ++ '/' :: (d ++ '?' :: q)) ≠ [] := by
    cases h with
    | nil => exact absurd rfl hh
    | cons a l => simp
  rcases hs with rfl | rfl | rfl | rfl
  · have e : "mysql".toList ++ "://".toList ++ h ++ ':' :: p ++ '/' :: d ++ '?' :: q =
        "mysql://".toList ++ (h ++ ':' :: (p ++ '/' :: (d ++ '?' :: q))) := by simp
    rw [e] at hlen ⊢
    obtain ⟨m, hm⟩ := _parse_standard_returns
      ⟨"mysql://".toList ++ (h ++ ':' :: (p ++ '/' :: (d ++ '?' :: q))), [], "mysql".toList,
        [], [], []⟩
      "mysql://".toList h p d q 8 rfl rfl hh hhc hp hpc hd hdc hq hlen
    exact ⟨m, create_of_parse_true _ _ (by rw [_parse_url_mysql _ hne hlen, hm])⟩
  · have e : "postgresql".toList ++ "://".toList ++ h ++ ':' :: p ++ '/' :: d ++ '?' :: q =
        "postgresql://".toList ++ (h ++ ':' :: (p ++ '/' :: (d ++ '?' :: q))) := by simp
    rw [e] at hlen ⊢
    obtain ⟨m, hm⟩ := _parse_standard_returns
      ⟨"postgresql://".toList ++ (h ++ ':' :: (p ++ '/' :: (d ++ '?' :: q))), [],
        "postgresql".toList, [], [], []⟩
      "postgresql://".toList h p d q 13 rfl rfl hh hhc hp hpc hd hdc hq hlen
    exact ⟨m, create_of_parse_true _ _ (by rw [_parse_url_postgresql _ hne hlen, hm])⟩
  · have e : "sqlserver".toList ++ "://".toList ++ h ++ ':' :: p ++ '/' :: d ++ '?' :: q =
        "sqlserver://".toList ++ (h ++ ':' :: (p ++ '/' :: (d ++ '?' :: q))) := by simp
    rw [e] at hlen ⊢
    obtain ⟨m, hm⟩ := _parse_standard_returns
      ⟨"sqlserver://".toList ++ (h ++ ':' :: (p ++ '/' :: (d ++ '?' :: q))), [],
        "sqlserver".toList, [], [], []⟩
      "sqlserver://".toList h p d q 12 rfl rfl hh hhc hp hpc hd hdc hq hlen
    exact ⟨m, create_of_parse_true _ _ (by rw [_parse_url_sqlserver _ hne hlen, hm])⟩
  · have e : "oracle".toList ++ "://".toList ++ h ++ ':' :: p ++ '/' :: d ++ '?' :: q =
        "oracle://".toList ++ (h ++ ':' :: (p ++ '/' :: (d ++ '?' :: q))) := by simp
    rw [e] at hlen ⊢
    obtain ⟨m, hm⟩ := _parse_standard_returns
      ⟨"oracle://".toList ++ (h ++ ':' :: (p ++ '/' :: (d ++ '?' :: q))), [], "oracle".toList,
        [], [], []⟩
      "oracle://".toList h p d q 9 rfl rfl hh hhc hp hpc hd hdc hq hlen
    refine ⟨m, create_of_parse_true _ _ ?_⟩
    rw [_parse_url_oracle _ hne hlen]
    unfold url._parse_oracle
    have hget : ("oracle://".toList ++ (h ++ ':' :: (p ++ '/' :: (d ++ '?' :: q)))).getD 9
        (Char.ofNat 0) ≠ '/' := by
      cases h with
      | nil => exact absurd rfl hh
      | cons a l =>
        have ha : a ≠ '/' := by
          intro heq
          apply hh0
          rw [heq]; rfl
        simpa using ha
    rw [if_neg hget, hm]

/-- C13, witness: a postgresql url. -/
theorem parse_network_url_witness :
    ∃ m, url.create ("postgresql".toList ++ "://".toList ++ "db.local".toList ++
        ':' :: "5432".toList ++ '/' :: "test".toList ++ '?' :: "user=root".toList) =
      outcome.returns ⟨"postgresql".toList ++ "://".toList ++ "db.local".toList ++
        ':' :: "5432".toList ++ '/' :: "test".toList ++ '?' :: "user=root".toList,
        "db.local".toList, "postgresql".toList, "test".toList, "5432".toList, m⟩ :=
  (parse_network_url "postgresql".toList "db.local".toList "5432".toList "test".toList
    "user=root".toList (Or.inr (Or.inl rfl)) (by decide) (by decide) (by decide) (by decide)
    (by decide) (by decide) (by decide) (by decide) (by unfold npos SIZE_T_MOD; decide)).1

/-- C14, the code at the failing input. The text `sqlite:XXengine.db3?a=b`
does not contain `://`: the scheme is followed by `:XX`. The parser accepts it
all the same, with `dbtype = sqlite` and the database name `engine.db3`: it
looks for the first `:` or `/` and skips three characters whatever they are. -/
theorem url_accepted_without_separator :
    ¬ List.IsInfix "://".toList "sqlite:XXengine.db3?a=b".toList ∧
    find_first_of "sqlite:XXengine.db3?a=b".toList "://".toList 0 = 6 ∧
    url.create "sqlite:XXengine.db3?a=b".toList =
      outcome.returns
        ⟨"sqlite:XXengine.db3?a=b".toList, [], "sqlite".toList, "engine.db3".toList, [],
          [("a".toList, "b".toList)]⟩ := by
  refine ⟨by decide, by decide, by decide⟩

/-! ## The url : parameters -/

/-- C15. For every query made of `&`-separated segments `k=v` whose keys are
non-empty, free of `=` and `&` and pairwise distinct and whose values are
non-empty and free of `&`, the parameter map after parsing holds exactly
those pairs, copied as they stand; `get_param_value` returns `v` for each of
the keys and the empty string for any other key. This holds for
`_parse_params` after any text before the query, and for the url built from
`sqlite://p?` followed by the query. -/
theorem params_of_distinct_keys (segs : List (List Char × List Char)) (hne : segs ≠ [])
    (hok : ∀ kv ∈ segs, segment_ok kv) (hnd : (segs.map Prod.fst).Nodup) :
    (∀ (u : url) (pre : List Char), u.m_url = pre ++ query_text segs → u.m_params = [] →
      u.m_url.length + 1 < npos →
      u._parse_params pre.length = outcome.returns (true, { u with m_params := segs })) ∧
    (∀ p : List Char, p ≠ [] → '?' ∉ p →
      ("sqlite://".toList ++ p ++ '?' :: query_text segs).length + 1 < npos →
      url.create ("sqlite://".toList ++ p ++ '?' :: query_text segs) =
        outcome.returns ⟨"sqlite://".toList ++ p ++ '?' :: query_text segs, [],
          "sqlite".toList, p, [], segs⟩) ∧
    (∀ u : url, u.m_params = segs →
      (∀ kv ∈ segs, u.get_param_value kv.1 = kv.2) ∧
      (∀ name, name ∉ segs.map Prod.fst → u.get_param_value name = [])) := by
  have hfold : segs.foldl (fun acc kv => emplace acc kv.1 kv.2) [] = segs := by
    have := foldl_emplace_nodup segs [] (by simpa using hnd)
    simpa using this
  refine ⟨?_, ?_, ?_⟩
  · intro u pre hurl hempty hlen
    rw [_parse_params_query u pre segs hne hok hurl hlen, hempty, hfold]
  · intro p hp hpq hlen
    apply create_of_parse_true
    rw [_parse_url_sqlite p (query_text segs) hp hpq hlen]
    have := _parse_params_query_at
      ⟨"sqlite://".toList ++ p ++ '?' :: query_text segs, [], "sqlite".toList, p, [], []⟩
      ("sqlite://".toList ++ p ++ ['?']) (9 + p.length + 1) segs hne hok (by simp)
      (by simp; omega) hlen
    rw [this, hfold]
  · intro u hu
    constructor
    · intro kv hkv
      unfold url.get_param_value
      rw [hu, lookup_of_mem_nodup segs hnd kv hkv]
    · intro name hname
      unfold url.get_param_value
      rw [hu, lookup_eq_none_of_not_mem segs name hname]

/-- C15, witness: the query `user=root&password=a=b` after a sqlite path. -/
theorem params_of_distinct_keys_witness :
    url.create ("sqlite://".toList ++ "x.db".toList ++ '?' ::
        query_text [("user".toList, "root".toList), ("password".toList, "a=b".toList)]) =
      outcome.returns ⟨"sqlite://".toList ++ "x.db".toList ++ '?' ::
        query_text [("user".toList, "root".toList), ("password".toList, "a=b".toList)], [],
        "sqlite".toList, "x.db".toList, [],
        [("user".toList, "root".toList), ("password".toList, "a=b".toList)]⟩ :=
  (params_of_distinct_keys [("user".toList, "root".toList), ("password".toList, "a=b".toList)]
    (by decide)
    (by
      intro kv hkv
      have h : kv = ("user".toList, "root".toList) ∨ kv = ("password".toList, "a=b".toList) := by
        simpa using hkv
      rcases h with rfl | rfl <;>
        exact ⟨by decide, by decide, by decide, by decide, by decide⟩)
    (by decide)).2.1 "x.db".toList (by decide) (by decide) (by unfold npos SIZE_T_MOD; decide)

/-- C16, counterexample. In `sqlite://x.db?a=1&a=2` the key `a` occurs twice;
`get_param_value` returns the value `1` of its first occurrence, not the
value `2` of its last one. -/
theorem duplicate_key_keeps_first :
    url.create "sqlite://x.db?a=1&a=2".toList =
      outcome.returns ⟨"sqlite://x.db?a=1&a=2".toList, [], "sqlite".toList, "x.db".toList, [],
        [("a".toList, "1".toList)]⟩ ∧
    url.get_param_value ⟨"sqlite://x.db?a=1&a=2".toList, [], "sqlite".toList, "x.db".toList, [],
        [("a".toList, "1".toList)]⟩ "a".toList = "1".toList ∧
    url.get_param_value ⟨"sqlite://x.db?a=1&a=2".toList, [], "sqlite".toList, "x.db".toList, [],
        [("a".toList, "1".toList)]⟩ "a".toList ≠ "2".toList := by
  refine ⟨by decide, by decide, by decide⟩

/-- C16, amended. When the same key occurs in more than one `key=value`
segment of the query, the parameter map associates the key with the value of
its first occurrence: `emplace` does not replace an entry, and
`get_param_value` returns the first value. -/
theorem first_occurrence_wins (segs : List (List Char × List Char)) (hne : segs ≠ [])
    (hok : ∀ kv ∈ segs, segment_ok kv) (u : url) (pre : List Char)
    (hurl : u.m_url = pre ++ query_text segs) (hempty : u.m_params = [])
    (hlen : u.m_url.length + 1 < npos) :
    ∃ u1, u._parse_params pre.length = outcome.returns (true, u1) ∧
      ∀ (before after : List (List Char × List Char)) (k v : List Char),
        segs = before ++ (k, v) :: after → k ∉ before.map Prod.fst →
        u1.get_param_value k = v := by
  refine ⟨_, _parse_params_query u pre segs hne hok hurl hlen, ?_⟩
  intro before after k v hsegs hk
  unfold url.get_param_value
  simp only
  rw [lookup_foldl_emplace, hempty, List.lookup_nil, hsegs, List.lookup_append,
    lookup_eq_none_of_not_mem before k hk]
  simp

/-- C16, witness: the query `a=1&b=2&a=3` gives `a` the value `1`. -/
theorem first_occurrence_wins_witness :
    ∃ u1, url._parse_params ⟨"x?".toList ++ query_text
          [("a".toList, "1".toList), ("b".toList, "2".toList), ("a".toList, "3".toList)],
        [], [], [], [], []⟩ "x?".toList.length = outcome.returns (true, u1) ∧
      u1.get_param_value "a".toList = "1".toList := by
  obtain ⟨u1, h1, h2⟩ := first_occurrence_wins
    [("a".toList, "1".toList), ("b".toList, "2".toList), ("a".toList, "3".toList)]
    (by decide)
    (by
      intro kv hkv
      have h : kv = ("a".toList, "1".toList) ∨ kv = ("b".toList, "2".toList) ∨
          kv = ("a".toList, "3".toList) := by
        simpa using hkv
      rcases h with rfl | rfl | rfl <;>
        exact ⟨by decide, by decide, by decide, by decide, by decide⟩)
    ⟨"x?".toList ++ query_text
      [("a".toList, "1".toList), ("b".toList, "2".toList), ("a".toList, "3".toList)],
      [], [], [], [], []⟩
    "x?".toList rfl rfl (by unfold npos SIZE_T_MOD; decide)
  exact ⟨u1, h1, h2 [] [("b".toList, "2".toList), ("a".toList, "3".toList)] "a".toList
    "1".toList rfl (by decide)⟩

/-! ## The url : rejected forms -/

/-- C17, the code at the failing inputs. `mysql://localhost/test?user=root`
has a host and a database name and lacks only the port, yet the error names
the host; `mysql://localhost:3306` has host and port and lacks the database
name, yet the error names the port; `mysql://localhost:3306/test` has host,
port and database name, yet it is rejected with the error of a missing
database name. -/
theorem missing_field_named_wrongly :
    url.create "mysql://localhost/test?user=root".toList =
      outcome.throws "url string is invalid,no host specified in url." ∧
    url.create "mysql://localhost:3306".toList =
      outcome.throws "url string is invalid,no port specified in url." ∧
    url.create "mysql://localhost:3306/test".toList =
      outcome.throws "url string is invalid,no database name specified in url." := by
  refine ⟨by decide, by decide, by decide⟩

/-! ## Lemmas : a parse that returns false -/

theorem _parse_standard_no_colon (u : url) (pre rest : List Char) (n : Nat)
    (hurl : u.m_url = pre ++ rest) (hn : n = pre.length) (hrest : ':' ∉ rest) :
    u._parse_standard n = outcome.throws "url string is invalid,no host specified in url." := by
  have hfind : find_first_of u.m_url [':'] n = npos := by
    rw [hurl, hn]
    exact find_first_of_absent pre rest [':'] (not_mem_singleton_of ':' rest hrest)
  unfold url._parse_standard
  simp only [hfind]
  rw [if_pos (Or.inr trivial)]

/-- The first stage of `_parse_url` on a text that ends right after `://`. -/
theorem _parse_url_scheme_only (u : url) (c0 : Char) (t0 : List Char)
    (hletter : is_letter c0 = true) (hcolon : ':' ∉ c0 :: t0) (hslash : '/' ∉ c0 :: t0)
    (hlen : ((c0 :: t0) ++ [':', '/', '/']).length + 1 < npos) :
    url._parse_url u ((c0 :: t0) ++ [':', '/', '/']) =
      outcome.throws "url string is invalid,no database type specified in url." := by
  have hslen : ((c0 :: t0) ++ [':', '/', '/']).length = (c0 :: t0).length + 3 := by simp
  have hmid : ∀ x ∈ c0 :: t0, x ∉ "://".toList := by
    intro x hx hmem
    have : x = ':' ∨ x = '/' := by
      have h3 : "://".toList = [':', '/', '/'] := rfl
      rw [h3] at hmem
      simpa using hmem
    rcases this with h | h
    · exact hcolon (h ▸ hx)
    · exact hslash (h ▸ hx)
  have hfind : find_first_of ((c0 :: t0) ++ [':', '/', '/']) "://".toList 0 =
      (c0 :: t0).length := by
    have := find_first_of_at ((c0 :: t0) ++ [':', '/', '/']) [] (c0 :: t0) ':'
      ['/', '/'] "://".toList 0 rfl rfl hmid (by decide)
    simpa using this
  have hadd : size_t_add (c0 :: t0).length "://".length = (c0 :: t0).length + 3 := by
    have h3 : "://".length = 3 := by decide
    rw [h3]
    exact size_t_add_of_lt _ _ (by have := npos_succ; omega)
  have hpos : 0 < (c0 :: t0).length := by simp
  unfold url._parse_url
  rw [if_neg (by simp)]
  have hloop : erase_head_loop (((c0 :: t0) ++ [':', '/', '/']).length + 1)
      ((c0 :: t0) ++ [':', '/', '/']) = some ((c0 :: t0) ++ [':', '/', '/']) := by
    rw [List.cons_append]
    exact erase_head_loop_letter _ c0 _ hletter
  rw [hloop]
  simp only [hfind, hadd]
  rw [if_neg (by omega), if_pos (by omega)]

/-- C19, counterexample. For `oracle:///servicename?user=scott&password=tiger`
the parser stores `servicename` as the host and leaves the database name
empty. -/
theorem oracle_service_stored_as_host :
    url.create "oracle:///servicename?user=scott&password=tiger".toList =
      outcome.returns
        ⟨"oracle:///servicename?user=scott&password=tiger".toList, "servicename".toList,
          "oracle".toList, [], [],
          [("user".toList, "scott".toList), ("password".toList, "tiger".toList)]⟩ := by
  decide

/-- C19, amended. When the text right after `://` begins with `/`: for the
sqlite scheme the text up to the first `?`, the leading `/` included, is
stored as the database name and host and port stay empty; for the oracle
scheme the text between that `/` and the first `?` is stored as the host (the
service name) and database name and port stay empty; the schemes mysql,
postgresql and sqlserver have no such form and reject the url for its missing
host when no `:` follows. -/
theorem empty_host_segment (r q : List Char) (hrq : '?' ∉ r) (hq : q ≠ []) :
    (("sqlite://".toList ++ '/' :: r ++ '?' :: q).length + 1 < npos →
      ∃ m, url.create ("sqlite://".toList ++ '/' :: r ++ '?' :: q) =
        outcome.returns ⟨"sqlite://".toList ++ '/' :: r ++ '?' :: q, [], "sqlite".toList,
          '/' :: r, [], m⟩) ∧
    (r ≠ [] → ("oracle://".toList ++ '/' :: r ++ '?' :: q).length + 1 < npos →
      ∃ m, url.create ("oracle://".toList ++ '/' :: r ++ '?' :: q) =
        outcome.returns ⟨"oracle://".toList ++ '/' :: r ++ '?' :: q, r, "oracle".toList,
          [], [], m⟩) ∧
    (∀ rest : List Char, ':' ∉ rest →
      (("mysql://".toList ++ '/' :: rest).length + 1 < npos →
        url.create ("mysql://".toList ++ '/' :: rest) =
          outcome.throws "url string is invalid,no host specified in url.") ∧
      (("postgresql://".toList ++ '/' :: rest).length + 1 < npos →
        url.create ("postgresql://".toList ++ '/' :: rest) =
          outcome.throws "url string is invalid,no host specified in url.") ∧
      (("sqlserver://".toList ++ '/' :: rest).length + 1 < npos →
        url.create ("sqlserver://".toList ++ '/' :: rest) =
          outcome.throws "url string is invalid,no host specified in url.")) := by
  have hqlen : 0 < q.length := List.length_pos.mpr hq
  refine ⟨?_, ?_, ?_⟩
  · intro hlen
    have hp : '?' ∉ '/' :: r := by
      intro hmem
      rcases List.mem_cons.mp hmem with h | h
      · exact absurd h (by decide)
      · exact hrq h
    have e : "sqlite://".toList ++ '/' :: r ++ '?' :: q =
        "sqlite://".toList ++ ('/' :: r) ++ '?' :: q := by simp
    rw [e] at hlen ⊢
    obtain ⟨m, hm⟩ := _parse_params_returns
      ⟨"sqlite://".toList ++ ('/' :: r) ++ '?' :: q, [], "sqlite".toList, '/' :: r, [], []⟩
      (9 + ('/' :: r).length + 1) hlen (by simp; omega)
    refine ⟨m, create_of_parse_true _ _ ?_⟩
    rw [_parse_url_sqlite ('/' :: r) q (by simp) hp hlen, hm]
  · intro hr hlen
    have e : "oracle://".toList ++ '/' :: r ++ '?' :: q =
        "oracle://".toList ++ ('/' :: (r ++ '?' :: q)) := by simp
    rw [e] at hlen ⊢
    have hrlen : 0 < r.length := List.length_pos.mpr hr
    have hat := _parse_oracle_by_service_at
      ⟨"oracle://".toList ++ ('/' :: (r ++ '?' :: q)), [], "oracle".toList, [], [], []⟩
      "oracle:///".toList r q 10 (by simp) (by decide) hr hrq hlen
    obtain ⟨m, hm⟩ := _parse_params_returns
      ⟨"oracle://".toList ++ ('/' :: (r ++ '?' :: q)), r, "oracle".toList, [], [], []⟩
      (10 + r.length + 1) hlen (by simp; omega)
    refine ⟨m, create_of_parse_true _ _ ?_⟩
    rw [_parse_url_oracle _ (by simp) hlen]
    unfold url._parse_oracle
    have hget : ("oracle://".toList ++ ('/' :: (r ++ '?' :: q))).getD 9 (Char.ofNat 0) = '/' := by
      simp
    have hinc : size_t_incr 9 = 10 := by unfold size_t_incr SIZE_T_MOD; decide
    simp only [hget, if_true, hinc]
    rw [hat, hm]
  · intro rest hrest
    have hcolon : ':' ∉ '/' :: rest := by
      intro hmem
      rcases List.mem_cons.mp hmem with h | h
      · exact absurd h (by decide)
      · exact hrest h
    refine ⟨?_, ?_, ?_⟩
    · intro hlen
      apply create_of_parse_throws
      rw [_parse_url_mysql _ (by simp) hlen]
      exact _parse_standard_no_colon _ "mysql://".toList ('/' :: rest) 8 rfl rfl hcolon
    · intro hlen
      apply create_of_parse_throws
      rw [_parse_url_postgresql _ (by simp) hlen]
      exact _parse_standard_no_colon _ "postgresql://".toList ('/' :: rest) 13 rfl rfl hcolon
    · intro hlen
      apply create_of_parse_throws
      rw [_parse_url_sqlserver _ (by simp) hlen]
      exact _parse_standard_no_colon _ "sqlserver://".toList ('/' :: rest) 12 rfl rfl hcolon

/-- C19, witness: the sqlite path `/tmp/x.db`, and `mysql:///test?a=b`. -/
theorem empty_host_segment_witness :
    (∃ m, url.create ("sqlite://".toList ++ '/' :: "tmp/x.db".toList ++ '?' :: "a=b".toList) =
      outcome.returns ⟨"sqlite://".toList ++ '/' :: "tmp/x.db".toList ++ '?' :: "a=b".toList, [],
        "sqlite".toList, '/' :: "tmp/x.db".toList, [], m⟩) ∧
    url.create ("mysql://".toList ++ '/' :: "test?a=b".toList) =
      outcome.throws "url string is invalid,no host specified in url." :=
  ⟨(empty_host_segment "tmp/x.db".toList "a=b".toList (by decide) (by decide)).1
      (by unfold npos SIZE_T_MOD; decide),
   ((empty_host_segment "tmp/x.db".toList "a=b".toList (by decide) (by decide)).2.2
      "test?a=b".toList (by decide)).1 (by unfold npos SIZE_T_MOD; decide)⟩

/-! ## Unknown database types -/

theorem new_connection_class_none (l : List Char)
    (h1 : l ≠ "mysql".toList) (h2 : l ≠ "oracle".toList) (h3 : l ≠ "postgresql".toList)
    (h4 : l ≠ "sqlite".toList) (h5 : l ≠ "sqlserver".toList) :
    new_connection_class (String.mk l) = none := by
  have e1 : String.mk l ≠ "mysql" := fun h => h1 (congrArg String.data h)
  have e2 : String.mk l ≠ "oracle" := fun h => h2 (congrArg String.data h)
  have e3 : String.mk l ≠ "postgresql" := fun h => h3 (congrArg String.data h)
  have e4 : String.mk l ≠ "sqlite" := fun h => h4 (congrArg String.data h)
  have e5 : String.mk l ≠ "sqlserver" := fun h => h5 (congrArg String.data h)
  unfold new_connection_class
  rw [if_neg e1, if_neg e2, if_neg e3, if_neg e4, if_neg e5]

theorem new_connection_unknown (db : String) (addr : Nat) (r : ctor_step)
    (h : new_connection_class db = none) :
    new_connection db addr r = Except.error "unknown database type." ∧
    new_connection_ctor_calls db = 0 := by
  unfold new_connection new_connection_ctor_calls
  rw [h]
  exact ⟨rfl, rfl⟩

/-- C20. For every scheme text whose lower-cased form is none of mysql,
oracle, postgresql, sqlite and sqlserver, `new_connection` fails with the
error `unknown database type.` and calls no driver constructor, on the
lower-cased text (what the url hands to the pool) and on the text as it
stands; and the url parser rejects every url `scheme://rest` with such a
scheme by an error. -/
theorem unknown_scheme_rejected (t : List Char)
    (h1 : t.map Char.toLower ≠ "mysql".toList) (h2 : t.map Char.toLower ≠ "oracle".toList)
    (h3 : t.map Char.toLower ≠ "postgresql".toList) (h4 : t.map Char.toLower ≠ "sqlite".toList)
    (h5 : t.map Char.toLower ≠ "sqlserver".toList) :
    (∀ (addr : Nat) (r : ctor_step),
      new_connection (String.mk (t.map Char.toLower)) addr r =
        Except.error "unknown database type." ∧
      new_connection (String.mk t) addr r = Except.error "unknown database type.") ∧
    new_connection_ctor_calls (String.mk (t.map Char.toLower)) = 0 ∧
    new_connection_ctor_calls (String.mk t) = 0 ∧
    (∀ (c0 : Char) (t0 rest : List Char), t = c0 :: t0 → is_letter c0 = true →
      ':' ∉ t → '/' ∉ t → (t ++ ':' :: '/' :: '/' :: rest).length + 1 < npos →
      url.create (t ++ ':' :: '/' :: '/' :: rest) =
        outcome.throws
          (if rest = [] then "url string is invalid,no database type specified in url."
           else "unknown database type.")) := by
  have hlow := new_connection_class_none (t.map Char.toLower) h1 h2 h3 h4 h5
  have hraw := new_connection_class_none t
    (fun h => h1 (by rw [h]; decide)) (fun h => h2 (by rw [h]; decide))
    (fun h => h3 (by rw [h]; decide)) (fun h => h4 (by rw [h]; decide))
    (fun h => h5 (by rw [h]; decide))
  refine ⟨fun addr r => ⟨(new_connection_unknown _ addr r hlow).1,
    (new_connection_unknown _ addr r hraw).1⟩,
    (new_connection_unknown _ 0 (ctor_step.constructed 0) hlow).2,
    (new_connection_unknown _ 0 (ctor_step.constructed 0) hraw).2, ?_⟩
  intro c0 t0 rest ht hletter hcolon hslash hlen
  subst ht
  apply create_of_parse_throws
  by_cases hrest : rest = []
  · subst hrest
    rw [if_pos rfl]
    exact _parse_url_scheme_only _ c0 t0 hletter hcolon hslash hlen
  · rw [if_neg hrest, _parse_url_scheme _ c0 t0 rest hletter hcolon hslash hrest hlen,
      if_neg h1, if_neg h2, if_neg h3, if_neg h4, if_neg h5]

/-- C20, witness: the scheme `Mongo`. -/
theorem unknown_scheme_rejected_witness :
    new_connection "mongo" 0 (ctor_step.constructed 0) =
      Except.error "unknown database type." ∧
    new_connection_ctor_calls "mongo" = 0 ∧
    url.create ("Mongo".toList ++ ':' :: '/' :: '/' :: "h:1/d?a=b".toList) =
      outcome.throws "unknown database type." :=
  have h := unknown_scheme_rejected "Mongo".toList (by decide) (by decide) (by decide)
    (by decide) (by decide)
  ⟨(h.1 0 (ctor_step.constructed 0)).1, h.2.1,
    h.2.2.2 'M' "ongo".toList "h:1/d?a=b".toList rfl (by decide) (by decide) (by decide)
      (by unfold npos SIZE_T_MOD; decide)⟩

/-! ## The driver registry -/

/-- C21, the code at the failing inputs. For the database types `oracle` and
`postgresql`, `new_connection` constructs a `sqlite_connection`, the class it
also constructs for `sqlite`: three different schemes resolve to the same
driver class. -/
theorem schemes_share_sqlite_driver :
    new_connection_class "sqlite" = some driver_class.sqlite_connection ∧
    new_connection_class "postgresql" = some driver_class.sqlite_connection ∧
    new_connection_class "oracle" = some driver_class.sqlite_connection ∧
    new_connection "postgresql" 0 (ctor_step.constructed 0) =
      Except.ok (some ⟨0, driver_class.sqlite_connection, 0⟩) ∧
    new_connection_class "mysql" = some driver_class.mysql_connection ∧
    new_connection_class "sqlserver" = some driver_class.sqlserver_connection := by
  refine ⟨by decide, by decide, by decide, rfl, by decide, by decide⟩

/-! ## Transactions -/

/-- C22. On a connection whose transaction depth is zero, `commit` and
`rollback` return false, hand no statement to the database and leave the
depth at zero. -/
theorem commit_rollback_outside_transaction (c : sqlite_connection) (status : Int)
    (h : c.m_transaction = 0) :
    (c.commit status).1 = false ∧ (c.commit status).2 = c ∧
    (c.rollback status).1 = false ∧ (c.rollback status).2 = c ∧
    (c.commit status).2.m_transaction = 0 ∧ (c.rollback status).2.m_transaction = 0 ∧
    (c.commit status).2.executed = c.executed ∧
    (c.rollback status).2.executed = c.executed := by
  have hin : c.is_intransaction = false := by
    unfold sqlite_connection.is_intransaction
    rw [h]; decide
  have hc : c.commit status = (false, c) := by
    unfold sqlite_connection.commit
    rw [hin]; rfl
  have hr : c.rollback status = (false, c) := by
    unfold sqlite_connection.rollback
    rw [hin]; rfl
  rw [hc, hr]
  exact ⟨rfl, rfl, rfl, rfl, h, h, rfl, rfl⟩

/-- C22, witness: a new connection, no statement issued so far. -/
theorem commit_rollback_outside_transaction_witness :
    (sqlite_connection.commit ⟨0, []⟩ SQLITE_OK).1 = false ∧
    (sqlite_connection.commit ⟨0, []⟩ SQLITE_OK).2 = ⟨0, []⟩ :=
  have h := commit_rollback_outside_transaction ⟨0, []⟩ SQLITE_OK rfl
  ⟨h.1, h.2.1⟩

/-- C29. After `commit` or `rollback` on a connection whose transaction depth
is at least one, the depth is zero and `is_intransaction()` is false, whatever
the depth was and whatever the database answers to the statement; the call
returns true exactly when the statement succeeds, so it returns false when
the statement fails, the counter being reset all the same. -/
theorem commit_rollback_reset_depth (c : sqlite_connection) (status : Int)
    (h : 1 ≤ c.m_transaction) :
    (c.commit status).2.m_transaction = 0 ∧
    (c.commit status).2.is_intransaction = false ∧
    (c.commit status).1 = decide (SQLITE_OK = status) ∧
    (c.commit status).2.executed = c.executed ++ ["COMMIT TRANSACTION;"] ∧
    (c.rollback status).2.m_transaction = 0 ∧
    (c.rollback status).2.is_intransaction = false ∧
    (c.rollback status).1 = decide (SQLITE_OK = status) ∧
    (c.rollback status).2.executed = c.executed ++ ["ROLLBACK TRANSACTION;"] ∧
    (status ≠ SQLITE_OK → (c.commit status).1 = false ∧ (c.rollback status).1 = false) := by
  have hin : c.is_intransaction = true := by
    unfold sqlite_connection.is_intransaction
    exact decide_eq_true (by omega)
  have hc : c.commit status =
      (decide (SQLITE_OK = status),
        ⟨0, c.executed ++ ["COMMIT TRANSACTION;"]⟩) := by
    unfold sqlite_connection.commit
    rw [hin]; rfl
  have hr : c.rollback status =
      (decide (SQLITE_OK = status),
        ⟨0, c.executed ++ ["ROLLBACK TRANSACTION;"]⟩) := by
    unfold sqlite_connection.rollback
    rw [hin]; rfl
  rw [hc, hr]
  refine ⟨rfl, rfl, rfl, rfl, rfl, rfl, rfl, rfl, ?_⟩
  intro hs
  have : ¬ SQLITE_OK = status := fun e => hs e.symm
  simp [this]

/-- C29, witness: depth 3, the `COMMIT` statement fails with `SQLITE_BUSY`. -/
theorem commit_rollback_reset_depth_witness :
    (sqlite_connection.commit ⟨3, []⟩ SQLITE_BUSY).2.m_transaction = 0 ∧
    (sqlite_connection.commit ⟨3, []⟩ SQLITE_BUSY).1 = false :=
  have h := commit_rollback_reset_depth ⟨3, []⟩ SQLITE_BUSY (by decide)
  ⟨h.1, (h.2.2.2.2.2.2.2.2 (by decide)).1⟩

/-! ## The timed retry -/

theorem execute_loop_spec (timeout : Nat) (handler : Nat → Int) :
    ∀ (fuel calls : Nat) (sleeps : List Nat), calls ≤ 10 → 11 ≤ fuel + calls →
      ∃ r, execute_loop timeout handler fuel (calls : Int) calls sleeps = some r ∧
        calls < r.calls ∧ r.calls ≤ 11 ∧ r.status = handler (r.calls - 1) ∧
        r.sleeps = sleeps ++ List.replicate (r.calls - 1 - calls) (timeout / 100) ∧
        (¬ (handler calls = SQLITE_BUSY ∨ handler calls = SQLITE_LOCKED) →
          r.calls = calls + 1) := by
  intro fuel
  induction fuel with
  | zero => intro calls sleeps h1 h2; omega
  | succ fuel ih =>
    intro calls sleeps h1 h2
    by_cases hcond : (handler calls = SQLITE_BUSY ∨ handler calls = SQLITE_LOCKED) ∧
        (calls : Int) ≤ 9
    · have h9 : calls ≤ 9 := by omega
      obtain ⟨r, hr, hlt, hle, hst, hsl, _⟩ :=
        ih (calls + 1) (sleeps ++ [timeout / 100]) (by omega) (by omega)
      refine ⟨r, ?_, by omega, hle, hst, ?_, fun hn => absurd hcond.1 hn⟩
      · rw [execute_loop, if_pos hcond]
        have hcast : ((calls : Int) + 1) = ((calls + 1 : Nat) : Int) := by push_cast; rfl
        rw [hcast]
        exact hr
      · rw [hsl, List.append_assoc]
        have e : r.calls - 1 - calls = (r.calls - 1 - (calls + 1)) + 1 := by omega
        rw [e, List.replicate_succ]
        rfl
    · refine ⟨⟨handler calls, calls + 1, sleeps⟩, ?_, by simp, by simp; omega, by simp, by simp,
        fun _ => rfl⟩
      rw [execute_loop, if_neg hcond]

/-- C30. For every timeout and every handler the timed retry ends, given
fuel for eleven rounds, after at most 11 handler invocations; it returns the
status of its last invocation, invokes the handler exactly once when the
first status is neither busy nor locked, and sleeps `timeout / 100`
milliseconds after each invocation but the last: its total sleep is at most
`10 * (timeout / 100)` milliseconds and never exceeds the timeout. -/
theorem timed_retry_bounded (timeout : Nat) (handler : Nat → Int) (fuel : Nat)
    (hfuel : 11 ≤ fuel) :
    ∃ r, sqlite_util_execute timeout handler fuel = some r ∧
      1 ≤ r.calls ∧ r.calls ≤ 11 ∧ r.status = handler (r.calls - 1) ∧
      (handler 0 ≠ SQLITE_BUSY → handler 0 ≠ SQLITE_LOCKED → r.calls = 1) ∧
      r.sleeps = List.replicate (r.calls - 1) (timeout / 100) ∧
      r.sleeps.sum ≤ 10 * (timeout / 100) ∧ r.sleeps.sum ≤ timeout := by
  obtain ⟨r, hr, hlt, hle, hst, hsl, hone⟩ :=
    execute_loop_spec timeout handler fuel 0 [] (by omega) (by omega)
  have hsl2 : r.sleeps = List.replicate (r.calls - 1) (timeout / 100) := by
    rw [hsl]; simp
  have hsum : r.sleeps.sum = (r.calls - 1) * (timeout / 100) := by
    rw [hsl2, List.sum_replicate, smul_eq_mul]
  have hbound : (r.calls - 1) * (timeout / 100) ≤ 10 * (timeout / 100) :=
    Nat.mul_le_mul_right _ (by omega)
  refine ⟨r, hr, by omega, hle, hst, ?_, hsl2, by rw [hsum]; exact hbound, ?_⟩
  · intro h1 h2
    have := hone (by
      intro h
      rcases h with h | h
      · exact h1 h
      · exact h2 h)
    omega
  · rw [hsum]
    have : 10 * (timeout / 100) ≤ timeout := by omega
    omega

/-- C30, witness: a database that stays busy; with a timeout of 3000 ms the
handler is invoked 11 times and the helper sleeps 10 times 30 ms. -/
theorem timed_retry_bounded_witness :
    ∃ r, sqlite_util_execute 3000 (fun _ => SQLITE_BUSY) 11 = some r ∧
      1 ≤ r.calls ∧ r.calls ≤ 11 ∧ r.status = SQLITE_BUSY ∧ r.sleeps.sum ≤ 300 := by
  obtain ⟨r, h1, h2, h3, h4, _, _, h7, _⟩ :=
    timed_retry_bounded 3000 (fun _ => SQLITE_BUSY) 11 (le_refl _)
  exact ⟨r, h1, h2, h3, h4, h7⟩

/-! ## The cap, operation by operation -/

theorem cap_inv_step (w : world) (o : op) (hI : cap_inv w) (ho : op.admissible w o) :
    cap_inv (w.step o) := by
  obtain ⟨hmax, hu, hle⟩ := hI
  obtain ⟨hm, _, _, _⟩ := step_config w o
  unfold cap_inv
  rw [hm]
  refine ⟨hmax, ?_⟩
  cases o with
  | acquire r =>
    rcases acquire_cases w r with ⟨c, rest, hc, h⟩ | ⟨_, hp, hl, _⟩ | ⟨cls, now, hc, hroom, h⟩
    · rw [hc] at hle
      simp at hle
      simp only [world.step, h, List.length_append, List.length_singleton]
      rw [size_t_incr_of_lt _ (by omega)]
      omega
    · simp only [world.step, hp, hl]
      exact ⟨hu, hle⟩
    · rw [hc] at hle
      simp at hle
      simp only [world.step, h, List.length_append, List.length_singleton, hc, List.length_nil]
      rw [size_t_incr_of_lt _ (by omega)]
      omega
  | release c =>
    have hc : c ∈ w.leases := ho
    have hpos : 0 < w.leases.length := List.length_pos_of_mem hc
    simp only [world.step, world.release, pool.deleter, List.length_append,
      List.length_singleton, List.length_erase_of_mem hc]
    rw [size_t_decr_of_pos _ (by omega) (by omega)]
    omega
  | sweep now ping =>
    simp only [world.step, world.sweep, _reap_connections_eq]
    refine ⟨hu, le_trans ?_ hle⟩
    exact Nat.add_le_add_left (List.length_filter_le _ _) _

theorem destroy_fields (p : pool) :
    p.destroy.1.m_connections = [] ∧ p.destroy.1.m_using_count = p.m_using_count ∧
    p.destroy.1.m_max_conn_count = p.m_max_conn_count := by
  obtain ⟨db, st, th, conns, uc, ic, ct, et, mc, si⟩ := p
  cases st <;> cases th <;> cases conns <;> simp [pool.destroy, pool.joinable]

/-- C24. If `init_count ≤ max_count`, then `leased_count + |idle| ≤ max_count`
holds right after construction, `leased_count` counting the outstanding
leases, and every single operation preserves it: an acquire, whether it
reuses, constructs, fails or reports exhaustion, a release of an outstanding
lease, a sweep, and shutdown. -/
theorem cap_preserved_by_every_operation :
    (∀ (db : String) (N ct et M si : Nat) (rs : Nat → ctor_step) (w : world),
      N ≤ M → M < SIZE_T_MOD → world.create db N ct et M si rs = Except.ok w → cap_inv w) ∧
    (∀ w : world, cap_inv w →
      (∀ r, cap_inv (w.acquire r).w) ∧
      (∀ c, c ∈ w.leases → cap_inv (w.release c)) ∧
      (∀ now ping, cap_inv (w.sweep now ping)) ∧
      cap_inv w.shutdown) := by
  constructor
  · intro db N ct et M si rs w hNM hM hw
    obtain ⟨hl, _, hu, _, _, hm, _, _, _, hf⟩ := create_ok db N ct et M si rs w hw
    have hlen := _init_fill_length _ _ _ hf
    simp at hlen
    unfold cap_inv
    rw [hm, hu, hl]
    exact ⟨hM, rfl, by omega⟩
  · intro w hI
    refine ⟨fun r => cap_inv_step w (op.acquire r) hI trivial,
      fun c hc => cap_inv_step w (op.release c) hI hc,
      fun now ping => cap_inv_step w (op.sweep now ping) hI trivial, ?_⟩
    obtain ⟨hmax, hu, hle⟩ := hI
    obtain ⟨h1, h2, h3⟩ := destroy_fields w.p
    unfold cap_inv world.shutdown
    simp only [h1, h2, h3, List.length_nil]
    exact ⟨hmax, hu, by omega⟩

/-- C24, witness: the state right after `pool(url, 2, 30, 3000, 3, 60)`, and
the state after the shutdown of a pool with one instance under lease. -/
theorem cap_preserved_by_every_operation_witness :
    cap_inv world_2_of_3 ∧ cap_inv world_one_leased.shutdown :=
  ⟨cap_preserved_by_every_operation.1 "sqlite" 2 30 3000 3 60 opens_at_index world_2_of_3
      (by decide) (by unfold SIZE_T_MOD; norm_num) rfl,
   (cap_preserved_by_every_operation.2 world_one_leased
      ⟨by unfold SIZE_T_MOD; decide, by decide, by decide⟩).2.2.2⟩

/-! ## The url : a parse that fails without an error -/

/-- C25. Whenever `_parse_url` returns false and the constructor therefore
returns normally, the partial state is discarded: `dbtype`, `host`, `port`
and `dbname` are empty, the parameter map is empty, and `get_param_value`
returns the empty string for every key. -/
theorem failed_parse_leaves_empty_url (s : List Char) (u1 : url)
    (h : url._parse_url ⟨[], [], [], [], [], []⟩ s = outcome.returns (false, u1)) :
    ∃ u, url.create s = outcome.returns u ∧ u.m_dbtype = [] ∧ u.m_host = [] ∧
      u.m_port = [] ∧ u.m_dbname = [] ∧ u.m_params = [] ∧
      ∀ name, u.get_param_value name = [] := by
  refine ⟨⟨[], [], [], [], [], []⟩, ?_, rfl, rfl, rfl, rfl, rfl, fun name => rfl⟩
  unfold url.create
  rw [h]
  rfl

/-- C25, witness: `sqlite://x.db?`, whose parse stored the type `sqlite` and
the name `x.db` before it returned false. -/
theorem failed_parse_leaves_empty_url_witness :
    ∃ u, url.create "sqlite://x.db?".toList = outcome.returns u ∧ u.m_dbtype = [] ∧
      u.m_host = [] ∧ u.m_port = [] ∧ u.m_dbname = [] ∧ u.m_params = [] ∧
      ∀ name, u.get_param_value name = [] :=
  failed_parse_leaves_empty_url "sqlite://x.db?".toList
    ⟨"sqlite://x.db?".toList, [], "sqlite".toList, "x.db".toList, [], []⟩ (by decide)

/-! ## The url : the loop that erases the head -/

theorem is_letter_null : is_letter (Char.ofNat 0) = false := by decide

/-- On a text without any letter the head-erasing loop does not end, whatever
the fuel. -/
theorem erase_head_loop_no_letter (fuel : Nat) :
    ∀ s : List Char, (∀ c ∈ s, is_letter c = false) → erase_head_loop fuel s = none := by
  induction fuel with
  | zero => intro s _; rfl
  | succ f ih =>
    intro s hs
    have hhead : is_letter (s.headD (Char.ofNat 0)) = false := by
      cases s with
      | nil => exact is_letter_null
      | cons a l => exact hs a (List.mem_cons_self _ _)
    rw [erase_head_loop, hhead]
    exact ih _ (fun c hc => hs c (List.mem_of_mem_drop hc))

/-- C26, the code at the failing input. The text `12 34` is not empty and
holds no letter. The loop that erases the head of `m_url` erases its five
characters and then goes on with the empty string, whose first character, the
terminating null, is no letter either: for every fuel the loop has not ended,
and the constructor never returns. -/
theorem url_parse_without_letter_never_ends :
    "12 34".toList ≠ [] ∧ (∀ fuel, erase_head_loop fuel "12 34".toList = none) ∧
    (∀ fuel, erase_head_loop fuel [] = none) ∧
    url.create "12 34".toList = outcome.no_end := by
  refine ⟨by decide, fun fuel => erase_head_loop_no_letter fuel _ (by decide),
    fun fuel => erase_head_loop_no_letter fuel [] (by simp), by decide⟩

/-! ## The url : segments of the query -/

/-- C27, the code at the failing input. In `sqlite://x.db?flag` the only
segment, `flag`, holds no `=`: `find_first_of` returns `npos`, and
`npos + 1` wraps to `0`, which is less than the length of the segment. The
test passes and the entry `(flag, flag)` is added to the map. -/
theorem segment_without_equal_sign_added :
    '=' ∉ "flag".toList ∧ find_first_of "flag".toList ['='] 0 = npos ∧
    size_t_incr npos = 0 ∧
    url.create "sqlite://x.db?flag".toList =
      outcome.returns ⟨"sqlite://x.db?flag".toList, [], "sqlite".toList, "x.db".toList, [],
        [("flag".toList, "flag".toList)]⟩ := by
  refine ⟨by decide, by decide, by unfold size_t_incr npos SIZE_T_MOD; decide, by decide⟩

/-! ## The lock during a sweep -/

theorem foldl_lock_plain (es : List reap_event) :
    ∀ held : Bool, (∀ e ∈ es, e ≠ reap_event.lock ∧ e ≠ reap_event.unlock) →
      es.foldl
        (fun held e =>
          match e with
          | reap_event.lock => true
          | reap_event.unlock => false
          | _ => held)
        held = held := by
  induction es with
  | nil => intro held _; rfl
  | cons e rest ih =>
    intro held h
    obtain ⟨h1, h2⟩ := h e (List.mem_cons_self _ _)
    rw [List.foldl_cons, ih _ (fun x hx => h x (List.mem_cons_of_mem _ hx))]
    cases e with
    | lock => exact absurd rfl h1
    | unlock => exact absurd rfl h2
    | ping c => rfl
    | delete c => rfl

theorem _reap_events_loop_plain (T : Nat) (now : Int) (ping : connection → Bool)
    (l : List connection) :
    ∀ e ∈ _reap_events_loop T now ping l, e ≠ reap_event.lock ∧ e ≠ reap_event.unlock := by
  induction l with
  | nil => intro e he; simp [_reap_events_loop] at he
  | cons c rest ih =>
    intro e he
    unfold _reap_events_loop at he
    split at he
    · rcases List.mem_cons.mp he with h | h
      · subst h; exact ⟨by simp, by simp⟩
      · exact ih e h
    · split at he
      · rcases List.mem_cons.mp he with h | h
        · subst h; exact ⟨by simp, by simp⟩
        · rcases List.mem_cons.mp h with h | h
          · subst h; exact ⟨by simp, by simp⟩
          · exact ih e h
      · rcases List.mem_cons.mp he with h | h
        · subst h; exact ⟨by simp, by simp⟩
        · exact ih e h

theorem _reap_events_loop_delete (T : Nat) (now : Int) (ping : connection → Bool)
    (l : List connection) (c : connection)
    (hc : c ∈ l.filter (fun c => decide (T < elapsed_seconds now c) || !ping c)) :
    reap_event.delete c ∈ _reap_events_loop T now ping l := by
  induction l with
  | nil => simp at hc
  | cons a rest ih =>
    rw [List.filter_cons] at hc
    unfold _reap_events_loop
    by_cases hs : T < elapsed_seconds now a
    · have hs2 : elapsed_seconds now a > T := hs
      rw [if_pos hs2]
      simp only [hs, decide_True, Bool.true_or, if_true] at hc
      rcases List.mem_cons.mp hc with h | h
      · subst h; exact List.mem_cons_self _ _
      · exact List.mem_cons_of_mem _ (ih h)
    · have hs2 : ¬ elapsed_seconds now a > T := hs
      rw [if_neg hs2]
      cases hp : ping a
      · simp only [hs, hp, decide_False, Bool.not_false, Bool.or_true, if_true] at hc
        simp only [Bool.not_false, if_true]
        rcases List.mem_cons.mp hc with h | h
        · subst h; exact List.mem_cons_of_mem _ (List.mem_cons_self _ _)
        · exact List.mem_cons_of_mem _ (List.mem_cons_of_mem _ (ih h))
      · simp only [hs, hp, decide_False, Bool.not_true, Bool.or_false] at hc
        simp only [Bool.not_true]
        exact List.mem_cons_of_mem _ (ih (by simpa using hc))

theorem _reap_events_loop_ping (T : Nat) (now : Int) (ping : connection → Bool)
    (l : List connection) (c : connection) (hc : c ∈ l) (hfresh : elapsed_seconds now c ≤ T) :
    reap_event.ping c ∈ _reap_events_loop T now ping l := by
  induction l with
  | nil => simp at hc
  | cons a rest ih =>
    unfold _reap_events_loop
    rcases List.mem_cons.mp hc with h | h
    · subst h
      have hs2 : ¬ elapsed_seconds now c > T := by omega
      rw [if_neg hs2]
      split <;> exact List.mem_cons_self _ _
    · have := ih h
      split
      · exact List.mem_cons_of_mem _ this
      · split
        · exact List.mem_cons_of_mem _ (List.mem_cons_of_mem _ this)
        · exact List.mem_cons_of_mem _ this

/-- C23, counterexample. A sweep at second 20 over the idle instances `conn0`
and `conn1`, both alive: the lock is taken, then both are pinged, and only
then is the lock given back. When `conn0` is pinged the lock is held. -/
theorem ping_while_lock_held :
    world_both_returned.p._reap_events 20 ping_alive =
      [reap_event.lock] ++ reap_event.ping conn0 ::
        [reap_event.ping conn1, reap_event.unlock] ∧
    lock_held [reap_event.lock] = true := by
  refine ⟨by decide, by decide⟩

/-- C23, amended. During a sweep the lock is taken before the first idle
instance is examined and given back after the last one: every `ping()` call
and every destruction of the sweep takes place while the lock is held; every
instance that is not stale is pinged and every evicted instance is deleted
there. -/
theorem sweep_probes_under_lock (p : pool) (now : Int) (ping : connection → Bool) :
    (∀ (pre post : List reap_event) (e : reap_event),
      p._reap_events now ping = pre ++ e :: post →
      e ≠ reap_event.lock → e ≠ reap_event.unlock → lock_held pre = true) ∧
    (∀ c ∈ (p._reap_connections now ping).2, reap_event.delete c ∈ p._reap_events now ping) ∧
    (∀ c ∈ p.m_connections, elapsed_seconds now c ≤ p.m_conn_timeout →
      reap_event.ping c ∈ p._reap_events now ping) := by
  refine ⟨?_, ?_, ?_⟩
  · intro pre post e h h1 h2
    unfold pool._reap_events at h
    split at h
    · cases pre with
      | nil =>
        simp only [List.nil_append, List.singleton_append, List.cons_append] at h
        exact absurd (List.cons.inj h).1.symm h1
      | cons a pre1 =>
        simp only [List.singleton_append, List.cons_append] at h
        obtain ⟨ha, hrest⟩ := List.cons.inj h
        rw [List.nil_append] at hrest
        rcases List.eq_nil_or_concat post with hp | ⟨post1, x, hp⟩
        · subst hp
          have hlast := congrArg List.getLast? hrest
          rw [List.getLast?_concat, List.getLast?_concat] at hlast
          exact absurd (Option.some.inj hlast).symm h2
        · rw [List.concat_eq_append] at hp
          subst hp
          have e3 : pre1 ++ e :: (post1 ++ [x]) = (pre1 ++ e :: post1) ++ [x] := by simp
          rw [e3] at hrest
          have hbody := (List.append_inj' hrest rfl).1
          have hplain : ∀ y ∈ pre1, y ≠ reap_event.lock ∧ y ≠ reap_event.unlock := by
            intro y hy
            apply _reap_events_loop_plain p.m_conn_timeout now ping p.m_connections
            rw [hbody]
            exact List.mem_append_left _ hy
          unfold lock_held
          rw [← ha, List.foldl_cons]
          exact foldl_lock_plain pre1 true hplain
    · cases pre <;> simp at h
  · intro c hc
    rw [_reap_connections_eq] at hc
    unfold pool._reap_events
    have hne : p.m_connections.length > 0 := by
      cases hl : p.m_connections with
      | nil => rw [hl] at hc; simp at hc
      | cons a l => simp
    rw [if_pos hne]
    exact List.mem_append_left _ (List.mem_append_right _
      (_reap_events_loop_delete _ now ping _ c hc))
  · intro c hc hfresh
    unfold pool._reap_events
    rw [if_pos (List.length_pos_of_mem hc)]
    exact List.mem_append_left _ (List.mem_append_right _
      (_reap_events_loop_ping _ now ping _ c hc hfresh))

/-- C23, witness: the ping of `conn1` in the sweep of the counterexample. -/
theorem sweep_probes_under_lock_witness :
    lock_held [reap_event.lock, reap_event.ping conn0] = true :=
  (sweep_probes_under_lock world_both_returned.p 20 ping_alive).1
    [reap_event.lock, reap_event.ping conn0] [reap_event.unlock] (reap_event.ping conn1)
    (by decide) (by simp) (by simp)

/-! ## Lemmas : segments after other segments -/

end zdb2
